import Mathlib

/-!
Shallow embedding of the EPUB persistent spine/TOC index pipeline of the
crosspoint-reader firmware: the scratch-file build protocol and the merged
book.bin binary index of `BookMetadataCache`, the path normaliser
`FsHelpers.normalisePath`, the spine itemref resolution of
`ContentOpfParser`, and the `Epub` facade accessors.

Files on block storage are modelled as byte lists (`List Nat`, one element
per byte); a read handle is a byte list together with a cursor position.
The `serialization` helpers (writePod, writeString, readPod, readString)
are library code that is not part of the repository snapshot; they are
modelled from the spec, which fixes the wire format: numeric fields are
fixed-width (little-endian on the ESP32 target; the version byte and the
TOC level are one byte, `size_t`, `int` and `int32` fields are four bytes)
and strings are length-prefixed (a `uint32` length, as witnessed by the
`sizeof(uint32_t) * 3` term of the metadata-size computation in
`buildBookBin`, followed by the raw bytes).
-/

namespace serialization

/-- Little-endian encoding of `n` into exactly `w` bytes (the value is
implicitly truncated to `n % 256 ^ w`, as a fixed-width store is). -/
def toBytesLE : Nat → Nat → List Nat
  | 0, _ => []
  | w + 1, n => n % 256 :: toBytesLE w (n / 256)

/-- Little-endian decoding of a byte list. -/
def fromBytesLE : List Nat → Nat
  | [] => 0
  | b :: bs => b + 256 * fromBytesLE bs

/-- Modelled from the spec: `serialization::writePod` for an unsigned field
of byte width `w` emits its fixed-width little-endian bytes. -/
def writePod (w n : Nat) : List Nat := toBytesLE w n

/-- Two's-complement encoding of a 32-bit signed value into `[0, 2^32)`. -/
def intEnc (i : Int) : Nat := (i % (2 ^ 32 : Int)).toNat

/-- Decoding of a 32-bit two's-complement value. -/
def intDec (n : Nat) : Int :=
  if n % 2 ^ 32 < 2 ^ 31 then ((n % 2 ^ 32 : Nat) : Int)
  else ((n % 2 ^ 32 : Nat) : Int) - 2 ^ 32

/-- Modelled from the spec: `serialization::writePod` for an `int32` field. -/
def writeInt (i : Int) : List Nat := toBytesLE 4 (intEnc i)

/-- Modelled from the spec: `serialization::writeString` emits a `uint32`
length followed by the raw bytes of the string. -/
def writeString (s : List Nat) : List Nat := toBytesLE 4 s.length ++ s

end serialization

/-- A read handle onto a storage file: the file's bytes and the cursor. -/
structure RFile where
  data : List Nat
  pos : Nat
deriving Repr, DecidableEq

namespace serialization

/-- Take `w` bytes from `l`, zero-padded if the list is shorter (a read past
the end of a storage file leaves the destination bytes unset; the pad value
is irrelevant to every claim, which only reads in-range). -/
def takePad (w : Nat) (l : List Nat) : List Nat :=
  l.take w ++ List.replicate (w - l.length) 0

/-- Raw read of `w` bytes at the cursor, advancing it. -/
def readRaw (w : Nat) (f : RFile) : List Nat × RFile :=
  (takePad w (f.data.drop f.pos), ⟨f.data, f.pos + w⟩)

/-- Modelled from the spec: `serialization::readPod` for an unsigned field. -/
def readPod (w : Nat) (f : RFile) : Nat × RFile :=
  let r := readRaw w f
  (fromBytesLE r.1, r.2)

/-- Modelled from the spec: `serialization::readPod` for an `int32` field. -/
def readInt (f : RFile) : Int × RFile :=
  let r := readPod 4 f
  (intDec r.1, r.2)

/-- Modelled from the spec: `serialization::readString` reads the `uint32`
length prefix and then that many raw bytes. -/
def readString (f : RFile) : List Nat × RFile :=
  let r := readPod 4 f
  ((r.2.data.drop r.2.pos).take r.1, ⟨r.2.data, r.2.pos + r.1⟩)

theorem toBytesLE_length (w n : Nat) : (toBytesLE w n).length = w := by
  induction w generalizing n with
  | zero => rfl
  | succ w ih => simp [toBytesLE, ih]

theorem fromBytesLE_toBytesLE (w n : Nat) :
    fromBytesLE (toBytesLE w n) = n % 256 ^ w := by
  induction w generalizing n with
  | zero => simp [toBytesLE, fromBytesLE, Nat.mod_one]
  | succ w ih =>
      simp only [toBytesLE, fromBytesLE, ih]
      rw [pow_succ', Nat.mod_mul]

theorem writeString_length (s : List Nat) :
    (writeString s).length = 4 + s.length := by
  simp [writeString, toBytesLE_length]

theorem intEnc_lt (i : Int) : intEnc i < 2 ^ 32 := by
  unfold intEnc
  omega

theorem intDec_intEnc (i : Int) (h1 : -2 ^ 31 ≤ i) (h2 : i < 2 ^ 31) :
    intDec (intEnc i) = i := by
  unfold intDec intEnc
  omega

end serialization

namespace serialization

theorem drop_step {data chunk rest : List Nat} {pos w : Nat}
    (h : data.drop pos = chunk ++ rest) (hw : chunk.length = w) :
    data.drop (pos + w) = rest := by
  rw [← List.drop_drop, h, ← hw, List.drop_left]

theorem readRaw_spec {data chunk rest : List Nat} {pos w : Nat}
    (h : data.drop pos = chunk ++ rest) (hw : chunk.length = w) :
    readRaw w ⟨data, pos⟩ = (chunk, ⟨data, pos + w⟩) := by
  simp only [readRaw, takePad, h]
  subst hw
  rw [List.take_left]
  simp [List.length_append]

theorem readPod_spec {data rest : List Nat} {pos w n : Nat}
    (h : data.drop pos = writePod w n ++ rest) :
    readPod w ⟨data, pos⟩ = (n % 256 ^ w, ⟨data, pos + w⟩) := by
  unfold writePod at h
  simp only [readPod, readRaw_spec h (toBytesLE_length w n), fromBytesLE_toBytesLE]

theorem readInt_spec {data rest : List Nat} {pos : Nat} {i : Int}
    (h : data.drop pos = writeInt i ++ rest)
    (h1 : -2 ^ 31 ≤ i) (h2 : i < 2 ^ 31) :
    readInt ⟨data, pos⟩ = (i, ⟨data, pos + 4⟩) := by
  unfold writeInt at h
  have h' : data.drop pos = writePod 4 (intEnc i) ++ rest := h
  have he : intEnc i % 256 ^ 4 = intEnc i := by
    have := intEnc_lt i
    omega
  simp only [readInt, readPod_spec h', he, intDec_intEnc i h1 h2]

theorem readString_spec {data s rest : List Nat} {pos : Nat}
    (h : data.drop pos = writeString s ++ rest) (hs : s.length < 2 ^ 32) :
    readString ⟨data, pos⟩ = (s, ⟨data, pos + 4 + s.length⟩) := by
  unfold writeString at h
  rw [List.append_assoc] at h
  have h' : data.drop pos = writePod 4 s.length ++ (s ++ rest) := h
  have h4 : data.drop (pos + 4) = s ++ rest :=
    drop_step h (toBytesLE_length 4 s.length)
  have hlen : s.length % 256 ^ 4 = s.length := by omega
  simp only [readString, readPod_spec h', hlen, h4, List.take_left]

end serialization

namespace BookMetadataCache

/-- A spine entry: in-archive item path, inflated bytes of this item plus
all prior spine items, and the index of the first TOC entry targeting this
item (-1 for none). -/
structure SpineEntry where
  href : List Nat
  cumulativeSize : Nat
  tocIndex : Int
deriving Repr, DecidableEq

/-- A TOC entry: title, target item path, in-document fragment anchor,
1-based nesting depth (a `uint8`), and the resolved spine index of the
target (-1 for none). -/
structure TocEntry where
  title : List Nat
  href : List Nat
  anchor : List Nat
  level : Nat
  spineIndex : Int
deriving Repr, DecidableEq

/-- Book-level metadata carried into the merge. -/
structure BookMetadata where
  title : List Nat
  author : List Nat
  coverItemHref : List Nat
deriving Repr, DecidableEq

/-- Modelled from the spec: the class header `BookMetadataCache.h` is not in
the snapshot, so the members' default initializers are taken from the spec,
which calls the out-of-range result "an empty/default entry" and encodes
"none" index fields as -1. -/
def SpineEntry.empty : SpineEntry := ⟨[], 0, -1⟩

/-- Modelled from the spec: default TOC entry, see `SpineEntry.empty`. -/
def TocEntry.empty : TocEntry := ⟨[], [], [], 0, -1⟩

/-- Byte image of one spine record, as `writeSpineEntry` emits it:
href string, `size_t` cumulative size, `int32` TOC index. -/
def writeSpineEntry (e : SpineEntry) : List Nat :=
  serialization.writeString e.href ++ serialization.writePod 4 e.cumulativeSize ++
    serialization.writeInt e.tocIndex

/-- Byte image of one TOC record, as `writeTocEntry` emits it: title, href
and anchor strings, `uint8` level, `int32` spine index. -/
def writeTocEntry (e : TocEntry) : List Nat :=
  serialization.writeString e.title ++ serialization.writeString e.href ++
    serialization.writeString e.anchor ++ serialization.writePod 1 e.level ++
    serialization.writeInt e.spineIndex

/-- `BookMetadataCache::readSpineEntry`: sequential field reads. -/
def readSpineEntry (f : RFile) : SpineEntry × RFile :=
  let h := serialization.readString f
  let c := serialization.readPod 4 h.2
  let t := serialization.readInt c.2
  (⟨h.1, c.1, t.1⟩, t.2)

/-- `BookMetadataCache::readTocEntry`: sequential field reads. -/
def readTocEntry (f : RFile) : TocEntry × RFile :=
  let t := serialization.readString f
  let h := serialization.readString t.2
  let a := serialization.readString h.2
  let l := serialization.readPod 1 a.2
  let s := serialization.readInt l.2
  (⟨t.1, h.1, a.1, l.1, s.1⟩, s.2)

/-- Well-formedness of a spine entry for serialization round-trip: field
values fit their fixed-width slots. -/
def SpineEntry.wf (e : SpineEntry) : Prop :=
  e.href.length < 2 ^ 32 ∧ e.cumulativeSize < 2 ^ 32 ∧
    -2 ^ 31 ≤ e.tocIndex ∧ e.tocIndex < 2 ^ 31

instance (e : SpineEntry) : Decidable e.wf := by unfold SpineEntry.wf; infer_instance

/-- Well-formedness of a TOC entry for serialization round-trip. -/
def TocEntry.wf (e : TocEntry) : Prop :=
  e.title.length < 2 ^ 32 ∧ e.href.length < 2 ^ 32 ∧ e.anchor.length < 2 ^ 32 ∧
    e.level < 256 ∧ -2 ^ 31 ≤ e.spineIndex ∧ e.spineIndex < 2 ^ 31

instance (e : TocEntry) : Decidable e.wf := by unfold TocEntry.wf; infer_instance

theorem writeSpineEntry_length (e : SpineEntry) :
    (writeSpineEntry e).length = e.href.length + 12 := by
  simp [writeSpineEntry, serialization.writeString_length, serialization.writePod,
    serialization.writeInt, serialization.toBytesLE_length]
  omega

theorem writeTocEntry_length (e : TocEntry) :
    (writeTocEntry e).length = e.title.length + e.href.length + e.anchor.length + 17 := by
  simp [writeTocEntry, serialization.writeString_length, serialization.writePod,
    serialization.writeInt, serialization.toBytesLE_length]
  omega

theorem readSpineEntry_spec {data rest : List Nat} {pos : Nat} {e : SpineEntry}
    (h : data.drop pos = writeSpineEntry e ++ rest) (hw : e.wf) :
    readSpineEntry ⟨data, pos⟩ = (e, ⟨data, pos + (writeSpineEntry e).length⟩) := by
  obtain ⟨w1, w2, w3, w4⟩ := hw
  unfold writeSpineEntry at h
  rw [List.append_assoc, List.append_assoc] at h
  have hhref := serialization.readString_spec h w1
  have h2 := serialization.drop_step h (serialization.writeString_length e.href)
  rw [← Nat.add_assoc] at h2
  have hcum := serialization.readPod_spec h2
  have h3 := serialization.drop_step h2 (serialization.toBytesLE_length 4 e.cumulativeSize)
  have htoc := serialization.readInt_spec h3 w3 w4
  have hc : e.cumulativeSize % 256 ^ 4 = e.cumulativeSize := by omega
  simp only [readSpineEntry, hhref, hcum, htoc, hc, writeSpineEntry_length,
    Prod.mk.injEq, RFile.mk.injEq]
  exact ⟨trivial, trivial, by omega⟩

theorem readTocEntry_spec {data rest : List Nat} {pos : Nat} {e : TocEntry}
    (h : data.drop pos = writeTocEntry e ++ rest) (hw : e.wf) :
    readTocEntry ⟨data, pos⟩ = (e, ⟨data, pos + (writeTocEntry e).length⟩) := by
  obtain ⟨w1, w2, w3, w4, w5, w6⟩ := hw
  unfold writeTocEntry at h
  simp only [List.append_assoc] at h
  have htitle := serialization.readString_spec h w1
  have h2 := serialization.drop_step h (serialization.writeString_length e.title)
  rw [← Nat.add_assoc] at h2
  have hhref := serialization.readString_spec h2 w2
  have h3 := serialization.drop_step h2 (serialization.writeString_length e.href)
  rw [← Nat.add_assoc] at h3
  have hanchor := serialization.readString_spec h3 w3
  have h4 := serialization.drop_step h3 (serialization.writeString_length e.anchor)
  rw [← Nat.add_assoc] at h4
  have hlevel := serialization.readPod_spec h4
  have h5 := serialization.drop_step h4 (serialization.toBytesLE_length 1 e.level)
  have hspine := serialization.readInt_spec h5 w5 w6
  have hl : e.level % 256 ^ 1 = e.level := by omega
  simp only [readTocEntry, htitle, hhref, hanchor, hlevel, hspine, hl, writeTocEntry_length,
    Prod.mk.injEq, RFile.mk.injEq]
  exact ⟨trivial, trivial, by omega⟩

end BookMetadataCache

namespace FsHelpers

/-- The '/' byte. -/
def slashByte : Nat := 47

/-- The ".." component as bytes. -/
def dotdotComp : List Nat := [46, 46]

/-- The component-splitting loop of `FsHelpers::normalisePath`: walk the
path bytes, cutting a component at every '/'; a component equal to ".."
pops the previous component (if any) instead of being pushed; a component
left over at the end of the input is pushed unconditionally. -/
def normaliseAux : List Nat → List (List Nat) → List Nat → List (List Nat)
  | [], comps, comp => if comp = [] then comps else comps ++ [comp]
  | c :: rest, comps, comp =>
    if c = slashByte then
      if comp = [] then normaliseAux rest comps []
      else if comp = dotdotComp then normaliseAux rest comps.dropLast []
      else normaliseAux rest (comps ++ [comp]) []
    else normaliseAux rest comps (comp ++ [c])

/-- The components the normaliser joins into its result string. -/
def normaliseComponents (path : List Nat) : List (List Nat) :=
  normaliseAux path [] []

/-- The joining loop of `FsHelpers::normalisePath`: '/' separators between
components, none at either end. -/
def joinComponents (cs : List (List Nat)) : List Nat :=
  cs.foldl (fun res c => if res = [] then res ++ c else res ++ slashByte :: c) []

/-- `FsHelpers::normalisePath` on the bytes of a path string. -/
def normalisePath (path : List Nat) : List Nat :=
  joinComponents (normaliseComponents path)

end FsHelpers

namespace BookMetadataCache

/-- Mode of a scratch-file handle: closed, open for reading, or open for
writing. -/
inductive FMode where
  | closed
  | rmode
  | wmode
deriving Repr, DecidableEq

/-- The builder-side state of a `BookMetadataCache`: the build flag and
entry counters, the two scratch-file handles (mode and cursor) and the
scratch files' on-storage contents. -/
structure BMC where
  buildMode : Bool
  spineCount : Nat
  tocCount : Nat
  spineMode : FMode
  spinePos : Nat
  tocMode : FMode
  tocPos : Nat
  spineDisk : List Nat
  tocDisk : List Nat
deriving Repr, DecidableEq

/-- A freshly constructed cache object: not in build mode, nothing open. -/
def initState : BMC := ⟨false, 0, 0, .closed, 0, .closed, 0, [], []⟩

/-- `BookMetadataCache::beginWrite`. -/
def beginWrite (st : BMC) : BMC :=
  { st with buildMode := true, spineCount := 0, tocCount := 0 }

/-- `BookMetadataCache::beginContentOpfPass`: opens the spine scratch for
writing (truncating it). -/
def beginContentOpfPass (st : BMC) : BMC :=
  { st with spineMode := .wmode, spineDisk := [], spinePos := 0 }

/-- `BookMetadataCache::endContentOpfPass`: closes the spine scratch. -/
def endContentOpfPass (st : BMC) : BMC := { st with spineMode := .closed }

/-- `BookMetadataCache::beginTocPass`: reopens the spine scratch for
reading and opens the TOC scratch for writing. -/
def beginTocPass (st : BMC) : BMC :=
  { st with spineMode := .rmode, spinePos := 0, tocMode := .wmode, tocDisk := [], tocPos := 0 }

/-- `BookMetadataCache::endTocPass`: closes both scratch handles. -/
def endTocPass (st : BMC) : BMC := { st with tocMode := .closed, spineMode := .closed }

/-- `BookMetadataCache::endWrite`: fails (leaving the state alone) unless
in build mode. -/
def endWrite (st : BMC) : Bool × BMC :=
  if st.buildMode then (true, { st with buildMode := false }) else (false, st)

/-- Write through a handle: append in write mode; on a handle that is open
read-only the storage layer refuses the write and neither its data nor the
cursor change (the source never checks the result). -/
def hWrite (mode : FMode) (disk : List Nat) (pos : Nat) (bytes : List Nat) : List Nat × Nat :=
  match mode with
  | .wmode => (disk ++ bytes, pos + bytes.length)
  | _ => (disk, pos)

/-- `BookMetadataCache::createSpineEntry`: guarded by the build flag and
the handle's validity (not its mode), appends an entry with zero
cumulative size and TOC index -1 and counts it. -/
def createSpineEntry (st : BMC) (href : List Nat) : BMC :=
  if st.buildMode = false ∨ st.spineMode = .closed then st
  else
    let w := hWrite st.spineMode st.spineDisk st.spinePos (writeSpineEntry ⟨href, 0, -1⟩)
    { st with spineDisk := w.1, spinePos := w.2, spineCount := st.spineCount + 1 }

/-- The linear scan of `createTocEntry`: seek the spine scratch to 0 and
read `count` entries in order, returning the index of the first whose href
matches (with the handle where the scan stopped), or -1 after all
`count` reads. -/
def findSpineIdx : Nat → Nat → RFile → List Nat → Int × RFile
  | 0, _, f, _ => (-1, f)
  | n + 1, i, f, href =>
    let r := readSpineEntry f
    if r.1.href = href then ((i : Int), r.2)
    else findSpineIdx n (i + 1) r.2 href

/-- `BookMetadataCache::createTocEntry`: guarded by the build flag and both
handles' validity; resolves the spine index by the linear scan, then
appends the entry to the TOC scratch and counts it. -/
def createTocEntry (st : BMC) (title href anchor : List Nat) (level : Nat) : BMC :=
  if st.buildMode = false ∨ st.tocMode = .closed ∨ st.spineMode = .closed then st
  else
    let s := findSpineIdx st.spineCount 0 ⟨st.spineDisk, 0⟩ href
    let w := hWrite st.tocMode st.tocDisk st.tocPos (writeTocEntry ⟨title, href, anchor, level, s.1⟩)
    { st with spinePos := s.2.pos, tocDisk := w.1, tocPos := w.2, tocCount := st.tocCount + 1 }

end BookMetadataCache

namespace BookMetadataCache

/-- The expected format version byte (`BOOK_CACHE_VERSION`). -/
def bookCacheVersion : Nat := 1

/-- The EPUB archive as the merge step sees it: whether `open` and
`loadAllFileStatSlims` succeed, and the inflated-size query
(`getInflatedFileSize`), `none` when the entry is absent. -/
structure ZipFile where
  canOpen : Bool
  canLoadStats : Bool
  inflatedSize : List Nat → Option Nat

/-- The spine-LUT replay loop of `buildBookBin`: record the scratch
position before each of the `n` sequential entry reads. -/
def spineLutPositions : Nat → RFile → List Nat × RFile
  | 0, f => ([], f)
  | n + 1, f =>
    let pos := f.pos
    let r := readSpineEntry f
    let rest := spineLutPositions n r.2
    (pos :: rest.1, rest.2)

/-- The TOC-LUT replay loop of `buildBookBin`. -/
def tocLutPositions : Nat → RFile → List Nat × RFile
  | 0, f => ([], f)
  | n + 1, f =>
    let pos := f.pos
    let r := readTocEntry f
    let rest := tocLutPositions n r.2
    (pos :: rest.1, rest.2)

/-- The inner TOC re-scan of the merge loop: seek the TOC scratch to 0 and
read up to `n` entries; on the first whose `spineIndex` equals the current
spine index `i`, the spine entry's `tocIndex` becomes that TOC position
`j`; after all `n` reads it keeps its scratch value `t0`. -/
def mergeTocScan (i : Int) : Nat → Nat → RFile → Int → Int
  | 0, _, _, t0 => t0
  | n + 1, j, f, t0 =>
    let r := readTocEntry f
    if r.1.spineIndex = i then (j : Int)
    else mergeTocScan i n (j + 1) r.2 t0

/-- The merge loop of `buildBookBin` over the spine scratch: for each of
`n` sequential entries, resolve `tocIndex` by the TOC re-scan, then query
the archive for the inflated size of the normalised href; on success add
it to the running total and store the total as `cumulativeSize`, otherwise
keep the scratch value and only warn.  Emits the book.bin spine block. -/
def mergeSpineBlock (zip : ZipFile) (tocDisk : List Nat) (tocCount : Nat) :
    Nat → Nat → Nat → RFile → List Nat
  | 0, _, _, _ => []
  | n + 1, i, cum, f =>
    let r := readSpineEntry f
    let e := r.1
    let tocIdx := mergeTocScan (i : Int) tocCount 0 ⟨tocDisk, 0⟩ e.tocIndex
    match zip.inflatedSize (FsHelpers.normalisePath e.href) with
    | some s =>
        writeSpineEntry ⟨e.href, cum + s, tocIdx⟩ ++
          mergeSpineBlock zip tocDisk tocCount n (i + 1) (cum + s) r.2
    | none =>
        writeSpineEntry ⟨e.href, e.cumulativeSize, tocIdx⟩ ++
          mergeSpineBlock zip tocDisk tocCount n (i + 1) cum r.2

/-- The final TOC copy loop of `buildBookBin`: re-read each scratch entry
and re-serialize it into book.bin. -/
def tocCopyBlock : Nat → RFile → List Nat
  | 0, _ => []
  | n + 1, f =>
    let r := readTocEntry f
    writeTocEntry r.1 ++ tocCopyBlock n r.2

/-- `BookMetadataCache::buildBookBin`: writes header A (version byte, LUT
offset, both counts), the metadata strings and both LUTs to book.bin, then
opens the archive; if `open` or `loadAllFileStatSlims` fails it returns
failure with the partial file as written so far.  Otherwise it appends the
merged spine block and the copied TOC block and returns success.  The
returned byte list is the on-storage content of book.bin in either case. -/
def buildBookBin (st : BMC) (zip : ZipFile) (metadata : BookMetadata) : Bool × List Nat :=
  let metadataSize := metadata.title.length + metadata.author.length +
    metadata.coverItemHref.length + 4 * 3
  let lutSize := 4 * st.spineCount + 4 * st.tocCount
  let lutOffset := (1 + 4 + 4 + 4) + metadataSize
  let sl := spineLutPositions st.spineCount ⟨st.spineDisk, 0⟩
  let tl := tocLutPositions st.tocCount ⟨st.tocDisk, 0⟩
  let headerBytes :=
    serialization.writePod 1 bookCacheVersion ++ serialization.writePod 4 lutOffset ++
      serialization.writePod 4 st.spineCount ++ serialization.writePod 4 st.tocCount ++
      serialization.writeString metadata.title ++ serialization.writeString metadata.author ++
      serialization.writeString metadata.coverItemHref ++
      (sl.1.map fun p => serialization.writePod 4 (p + lutOffset + lutSize)).flatten ++
      (tl.1.map fun p => serialization.writePod 4 (p + lutOffset + lutSize + sl.2.pos)).flatten
  if zip.canOpen = false then (false, headerBytes)
  else if zip.canLoadStats = false then (false, headerBytes)
  else
    let spineBlock := mergeSpineBlock zip st.tocDisk st.tocCount st.spineCount 0 0 ⟨st.spineDisk, 0⟩
    let tocBlock := tocCopyBlock st.tocCount ⟨st.tocDisk, 0⟩
    (true, headerBytes ++ spineBlock ++ tocBlock)

/-- The reader-side state after a successful `load`: the header fields and
metadata read eagerly, over the opened file's bytes. -/
structure LoadedCache where
  lutOffset : Nat
  spineCount : Nat
  tocCount : Nat
  title : List Nat
  author : List Nat
  coverItemHref : List Nat
  data : List Nat
deriving Repr, DecidableEq

/-- `BookMetadataCache::load` on an existing book.bin with the given bytes:
reads the version byte and fails closed on a mismatch; otherwise reads the
LUT offset, the counts and the metadata strings and is loaded.  `none`
models a `false` return with `loaded` never set. -/
def load (data : List Nat) : Option LoadedCache :=
  let v := serialization.readPod 1 ⟨data, 0⟩
  if v.1 ≠ bookCacheVersion then none
  else
    let lo := serialization.readPod 4 v.2
    let sc := serialization.readPod 4 lo.2
    let tc := serialization.readPod 4 sc.2
    let ti := serialization.readString tc.2
    let au := serialization.readString ti.2
    let co := serialization.readString au.2
    some ⟨lo.1, sc.1, tc.1, ti.1, au.1, co.1, data⟩

/-- `BookMetadataCache::getSpineEntry` on a loaded cache: bounds-check
against the stored count (returning the default entry on a miss), then
read the LUT slot at `lutOffset + 4 * index` and the record it points at. -/
def getSpineEntry (c : LoadedCache) (index : Int) : SpineEntry :=
  if index < 0 ∨ (c.spineCount : Int) ≤ index then SpineEntry.empty
  else
    let p := serialization.readPod 4 ⟨c.data, c.lutOffset + 4 * index.toNat⟩
    (readSpineEntry ⟨c.data, p.1⟩).1

/-- `BookMetadataCache::getTocEntry` on a loaded cache: as
`getSpineEntry`, with the LUT slot at
`lutOffset + 4 * spineCount + 4 * index`. -/
def getTocEntry (c : LoadedCache) (index : Int) : TocEntry :=
  if index < 0 ∨ (c.tocCount : Int) ≤ index then TocEntry.empty
  else
    let p := serialization.readPod 4 ⟨c.data, c.lutOffset + 4 * c.spineCount + 4 * index.toNat⟩
    (readTocEntry ⟨c.data, p.1⟩).1

end BookMetadataCache

namespace Epub

/-- `Epub::getSpineItem`: without a loaded cache, a default entry; with
one, an out-of-range index falls back to `getSpineEntry(0)` (which
bounds-checks again), an in-range index reads its own entry. -/
def getSpineItem (c : Option BookMetadataCache.LoadedCache) (spineIndex : Int) :
    BookMetadataCache.SpineEntry :=
  match c with
  | none => BookMetadataCache.SpineEntry.empty
  | some c =>
    if spineIndex < 0 ∨ (c.spineCount : Int) ≤ spineIndex then BookMetadataCache.getSpineEntry c 0
    else BookMetadataCache.getSpineEntry c spineIndex

/-- `Epub::getTocItem`: without a loaded cache or with an out-of-range
index, a default entry; otherwise the entry itself. -/
def getTocItem (c : Option BookMetadataCache.LoadedCache) (tocIndex : Int) :
    BookMetadataCache.TocEntry :=
  match c with
  | none => BookMetadataCache.TocEntry.empty
  | some c =>
    if tocIndex < 0 ∨ (c.tocCount : Int) ≤ tocIndex then BookMetadataCache.TocEntry.empty
    else BookMetadataCache.getTocEntry c tocIndex

end Epub

namespace ContentOpfParser

/-- The idref-resolution loop of `ContentOpfParser::startElement` for a
spine `itemref`: seek the manifest scratch to 0 and, while bytes remain,
read an (itemId, href) string pair; on the first matching itemId return
its href.  The fuel is an upper bound on the iteration count; each
iteration consumes at least eight bytes of cursor, so the store length
suffices. -/
def scanItemStore : Nat → RFile → List Nat → Option (List Nat)
  | 0, _, _ => none
  | fuel + 1, f, idref =>
    if f.pos < f.data.length then
      let idR := serialization.readString f
      let hrefR := serialization.readString idR.2
      if idR.1 = idref then some hrefR.1
      else scanItemStore fuel hrefR.2 idref
    else none

/-- Handling of one spine `itemref idref=...` element: resolve the idref
against the manifest scratch; on a match create a spine entry with the
resolved href, otherwise only warn and create nothing. -/
def handleItemref (st : BookMetadataCache.BMC) (store : List Nat) (idref : List Nat) :
    BookMetadataCache.BMC :=
  match scanItemStore store.length ⟨store, 0⟩ idref with
  | some href => BookMetadataCache.createSpineEntry st href
  | none => st

/-- The byte image of one manifest-scratch (itemId, href) pair. -/
def writeItemPair (p : List Nat × List Nat) : List Nat :=
  serialization.writeString p.1 ++ serialization.writeString p.2

end ContentOpfParser

namespace BookMetadataCache

/-- Index of the first list element satisfying `p`, if any. -/
def firstIdx {α : Type} (p : α → Bool) : List α → Option Nat
  | [] => none
  | a :: as => if p a then some 0 else (firstIdx p as).map (· + 1)

/-- List-level spec of the `createTocEntry` resolution scan: the index of
the first spine href equal to `href`, or -1. -/
def resolveSpineIndex (hrefs : List (List Nat)) (href : List Nat) : Int :=
  match firstIdx (fun h => h = href) hrefs with
  | some i => (i : Int)
  | none => -1

/-- One TOC entry as handed to `createTocEntry` by the NCX pass. -/
structure TocInput where
  title : List Nat
  href : List Nat
  anchor : List Nat
  level : Nat
deriving Repr, DecidableEq

/-- List-level spec of the TOC scratch content: each input with its href
resolved against the spine hrefs. -/
def resolvedTocList (hrefs : List (List Nat)) (ts : List TocInput) : List TocEntry :=
  ts.map fun t => ⟨t.title, t.href, t.anchor, t.level, resolveSpineIndex hrefs t.href⟩

/-- List-level spec of the merge's TOC re-scan: index of the first TOC
entry resolving to spine index `i`, or -1. -/
def finalTocIdx (tes : List TocEntry) (i : Nat) : Int :=
  match firstIdx (fun te => te.spineIndex = (i : Int)) tes with
  | some j => (j : Int)
  | none => -1

/-- List-level spec of the merged spine entries, from spine index `i` with
running size total `cum`: cumulative size advances only on a successful
size query (on a miss the scratch value 0 is kept). -/
def finalSpineAux (zip : ZipFile) (tes : List TocEntry) :
    List (List Nat) → Nat → Nat → List SpineEntry
  | [], _, _ => []
  | h :: rest, i, cum =>
    match zip.inflatedSize (FsHelpers.normalisePath h) with
    | some s => ⟨h, cum + s, finalTocIdx tes i⟩ :: finalSpineAux zip tes rest (i + 1) (cum + s)
    | none => ⟨h, 0, finalTocIdx tes i⟩ :: finalSpineAux zip tes rest (i + 1) cum

/-- List-level spec of the finalized spine list of a build. -/
def finalSpineList (zip : ZipFile) (hrefs : List (List Nat)) (ts : List TocInput) :
    List SpineEntry :=
  finalSpineAux zip (resolvedTocList hrefs ts) hrefs 0 0

/-- Byte image of the spine scratch file after the content.opf pass. -/
def spineScratch (hrefs : List (List Nat)) : List Nat :=
  (hrefs.map fun h => writeSpineEntry ⟨h, 0, -1⟩).flatten

/-- Byte image of the TOC scratch file written from entries `tes`. -/
def tocScratch (tes : List TocEntry) : List Nat :=
  (tes.map writeTocEntry).flatten

/-- The build protocol as the `Epub::load` orchestrator drives it:
`beginWrite`, the content.opf pass creating every spine entry in order,
the TOC pass creating every TOC entry in order, `endWrite`. -/
def runBuild (hrefs : List (List Nat)) (ts : List TocInput) : BMC :=
  let st := beginWrite initState
  let st := beginContentOpfPass st
  let st := hrefs.foldl createSpineEntry st
  let st := endContentOpfPass st
  let st := beginTocPass st
  let st := ts.foldl (fun s t => createTocEntry s t.title t.href t.anchor t.level) st
  let st := endTocPass st
  (endWrite st).2

/-- A full build followed by the merge: the success flag and the book.bin
bytes. -/
def builtBook (hrefs : List (List Nat)) (ts : List TocInput) (zip : ZipFile)
    (metadata : BookMetadata) : Bool × List Nat :=
  buildBookBin (runBuild hrefs ts) zip metadata

/-- Well-formedness of the build inputs: every string fits its `uint32`
length prefix, every TOC level its `uint8` slot, and both entry counts
their `int` header fields. -/
def wfInputs (hrefs : List (List Nat)) (ts : List TocInput) (metadata : BookMetadata) : Prop :=
  (∀ h ∈ hrefs, h.length < 2 ^ 32) ∧
    (∀ t ∈ ts, t.title.length < 2 ^ 32 ∧ t.href.length < 2 ^ 32 ∧
      t.anchor.length < 2 ^ 32 ∧ t.level < 256) ∧
    metadata.title.length < 2 ^ 32 ∧ metadata.author.length < 2 ^ 32 ∧
    metadata.coverItemHref.length < 2 ^ 32 ∧
    hrefs.length < 2 ^ 31 ∧ ts.length < 2 ^ 31

instance (hrefs : List (List Nat)) (ts : List TocInput) (metadata : BookMetadata) :
    Decidable (wfInputs hrefs ts metadata) := by
  unfold wfInputs; infer_instance

end BookMetadataCache

namespace BookMetadataCache

/-- The scratch image of one spine href, as `createSpineEntry` writes it. -/
def scratchEntry (h : List Nat) : SpineEntry := ⟨h, 0, -1⟩

theorem scratchEntry_wf (h : List Nat) (hl : h.length < 2 ^ 32) : (scratchEntry h).wf := by
  refine ⟨hl, ?_, ?_, ?_⟩ <;> simp [scratchEntry]

theorem spineScratch_cons (h : List Nat) (t : List (List Nat)) :
    spineScratch (h :: t) = writeSpineEntry (scratchEntry h) ++ spineScratch t := rfl

theorem tocScratch_cons (e : TocEntry) (t : List TocEntry) :
    tocScratch (e :: t) = writeTocEntry e ++ tocScratch t := rfl

theorem createSpineEntry_wmode (st : BMC) (href : List Nat)
    (hb : st.buildMode = true) (hm : st.spineMode = .wmode) :
    createSpineEntry st href =
      { st with spineDisk := st.spineDisk ++ writeSpineEntry (scratchEntry href),
                spinePos := st.spinePos + (writeSpineEntry (scratchEntry href)).length,
                spineCount := st.spineCount + 1 } := by
  unfold createSpineEntry
  rw [hb, hm]
  simp [hWrite, scratchEntry]

theorem foldl_createSpineEntry (hrefs : List (List Nat)) :
    ∀ (st : BMC), st.buildMode = true → st.spineMode = .wmode →
    hrefs.foldl createSpineEntry st =
      { st with spineDisk := st.spineDisk ++ spineScratch hrefs,
                spinePos := st.spinePos + (spineScratch hrefs).length,
                spineCount := st.spineCount + hrefs.length } := by
  induction hrefs with
  | nil =>
      intro st hb hm
      simp [spineScratch]
  | cons h t ih =>
      intro st hb hm
      simp only [List.foldl_cons]
      have hcs := createSpineEntry_wmode st h hb hm
      rw [ih (createSpineEntry st h) (by rw [hcs]; exact hb) (by rw [hcs]; exact hm), hcs]
      simp [spineScratch_cons, List.append_assoc]
      omega

theorem findSpineIdx_spec (href : List Nat) :
    ∀ (hrefs : List (List Nat)) (i : Nat) (data rest : List Nat) (pos : Nat),
    data.drop pos = spineScratch hrefs ++ rest →
    (∀ x ∈ hrefs, x.length < 2 ^ 32) →
    (findSpineIdx hrefs.length i ⟨data, pos⟩ href).1 =
      (match firstIdx (fun x => x = href) hrefs with
       | some k => ((i + k : Nat) : Int)
       | none => -1) := by
  intro hrefs
  induction hrefs with
  | nil =>
      intro i data rest pos _ _
      simp [findSpineIdx, firstIdx]
  | cons h t ih =>
      intro i data rest pos hdrop hwf
      rw [spineScratch_cons, List.append_assoc] at hdrop
      have hre := readSpineEntry_spec hdrop (scratchEntry_wf h (hwf h (by simp)))
      have hnext : data.drop (pos + (writeSpineEntry (scratchEntry h)).length) =
          spineScratch t ++ rest :=
        serialization.drop_step hdrop rfl
      simp only [List.length_cons, findSpineIdx, hre, firstIdx]
      by_cases hh : h = href
      · simp [hh, scratchEntry]
      · have hne : (scratchEntry h).href = href ↔ False := by simp [scratchEntry, hh]
        simp only [hne, if_false, decide_eq_true_eq, hh, if_neg, eq_self_iff_true]
        rw [ih (i + 1) data rest _ hnext (fun x hx => hwf x (by simp [hx]))]
        cases hfi : firstIdx (fun x => x = href) t with
        | none => simp
        | some k =>
            simp only [Option.map_some']
            show (((i + 1) + k : Nat) : Int) = ((i + (k + 1) : Nat) : Int)
            omega

theorem createTocEntry_phase (st : BMC) (t : TocInput)
    (hb : st.buildMode = true) (hsm : st.spineMode = .rmode) (htm : st.tocMode = .wmode) :
    createTocEntry st t.title t.href t.anchor t.level =
      { st with
          spinePos := (findSpineIdx st.spineCount 0 ⟨st.spineDisk, 0⟩ t.href).2.pos,
          tocDisk := st.tocDisk ++ writeTocEntry ⟨t.title, t.href, t.anchor, t.level,
            (findSpineIdx st.spineCount 0 ⟨st.spineDisk, 0⟩ t.href).1⟩,
          tocPos := st.tocPos + (writeTocEntry ⟨t.title, t.href, t.anchor, t.level,
            (findSpineIdx st.spineCount 0 ⟨st.spineDisk, 0⟩ t.href).1⟩).length,
          tocCount := st.tocCount + 1 } := by
  unfold createTocEntry
  rw [hb, hsm, htm]
  simp [hWrite, htm]

theorem findSpineIdx_resolve (hrefs : List (List Nat)) (href : List Nat)
    (hwf : ∀ x ∈ hrefs, x.length < 2 ^ 32) :
    (findSpineIdx hrefs.length 0 ⟨spineScratch hrefs, 0⟩ href).1 =
      resolveSpineIndex hrefs href := by
  rw [findSpineIdx_spec href hrefs 0 (spineScratch hrefs) [] 0 (by simp) hwf]
  unfold resolveSpineIndex
  cases firstIdx (fun x => x = href) hrefs <;> simp

theorem foldl_createTocEntry (hrefs : List (List Nat))
    (hwf : ∀ x ∈ hrefs, x.length < 2 ^ 32) :
    ∀ (ts : List TocInput) (st : BMC), st.buildMode = true → st.spineMode = .rmode →
    st.tocMode = .wmode → st.spineDisk = spineScratch hrefs → st.spineCount = hrefs.length →
    ∃ sp, ts.foldl (fun s t => createTocEntry s t.title t.href t.anchor t.level) st =
      { st with spinePos := sp,
                tocDisk := st.tocDisk ++ tocScratch (resolvedTocList hrefs ts),
                tocPos := st.tocPos + (tocScratch (resolvedTocList hrefs ts)).length,
                tocCount := st.tocCount + ts.length } := by
  intro ts
  induction ts with
  | nil =>
      intro st _ _ _ _ _
      refine ⟨st.spinePos, ?_⟩
      simp [resolvedTocList, tocScratch]
  | cons t ts ih =>
      intro st hb hsm htm hdisk hcount
      simp only [List.foldl_cons]
      have hct := createTocEntry_phase st t hb hsm htm
      have hres : (findSpineIdx st.spineCount 0 ⟨st.spineDisk, 0⟩ t.href).1 =
          resolveSpineIndex hrefs t.href := by
        rw [hdisk, hcount]
        exact findSpineIdx_resolve hrefs t.href hwf
      rw [hres] at hct
      obtain ⟨sp, hrest⟩ := ih (createTocEntry st t.title t.href t.anchor t.level)
        (by rw [hct]; exact hb) (by rw [hct]; exact hsm) (by rw [hct]; exact htm)
        (by rw [hct]; exact hdisk) (by rw [hct]; exact hcount)
      refine ⟨sp, ?_⟩
      rw [hrest, hct]
      have hcons : resolvedTocList hrefs (t :: ts) =
          (⟨t.title, t.href, t.anchor, t.level, resolveSpineIndex hrefs t.href⟩ : TocEntry) ::
            resolvedTocList hrefs ts := rfl
      simp [hcons, tocScratch_cons, List.append_assoc]
      omega

theorem runBuild_fields (hrefs : List (List Nat)) (ts : List TocInput)
    (hwf : ∀ x ∈ hrefs, x.length < 2 ^ 32) :
    (runBuild hrefs ts).buildMode = false ∧
    (runBuild hrefs ts).spineCount = hrefs.length ∧
    (runBuild hrefs ts).tocCount = ts.length ∧
    (runBuild hrefs ts).spineDisk = spineScratch hrefs ∧
    (runBuild hrefs ts).tocDisk = tocScratch (resolvedTocList hrefs ts) := by
  unfold runBuild
  dsimp only
  rw [foldl_createSpineEntry hrefs (beginContentOpfPass (beginWrite initState)) rfl rfl]
  obtain ⟨sp, hB⟩ := foldl_createTocEntry hrefs hwf ts
    (beginTocPass (endContentOpfPass
      { beginContentOpfPass (beginWrite initState) with
          spineDisk := (beginContentOpfPass (beginWrite initState)).spineDisk ++ spineScratch hrefs,
          spinePos := (beginContentOpfPass (beginWrite initState)).spinePos +
            (spineScratch hrefs).length,
          spineCount := (beginContentOpfPass (beginWrite initState)).spineCount + hrefs.length }))
    rfl rfl rfl
    (by simp [beginTocPass, endContentOpfPass, beginContentOpfPass, beginWrite, initState])
    (by simp [beginTocPass, endContentOpfPass, beginContentOpfPass, beginWrite, initState])
  rw [hB]
  simp [endTocPass, endWrite, beginTocPass, endContentOpfPass, beginContentOpfPass,
    beginWrite, initState]

/-- Cursor positions of consecutive records with the given byte lengths,
starting at `base`. -/
def posList : Nat → List Nat → List Nat
  | _, [] => []
  | base, l :: ls => base :: posList (base + l) ls

theorem spineScratch_flatten (hrefs : List (List Nat)) :
    spineScratch hrefs = ((hrefs.map scratchEntry).map writeSpineEntry).flatten := by
  simp only [spineScratch, List.map_map]
  rfl

theorem spineLutPositions_spec :
    ∀ (es : List SpineEntry) (data rest : List Nat) (pos : Nat),
    data.drop pos = (es.map writeSpineEntry).flatten ++ rest →
    (∀ e ∈ es, e.wf) →
    spineLutPositions es.length ⟨data, pos⟩ =
      (posList pos (es.map fun e => (writeSpineEntry e).length),
       ⟨data, pos + ((es.map writeSpineEntry).flatten).length⟩) := by
  intro es
  induction es with
  | nil =>
      intro data rest pos _ _
      simp [spineLutPositions, posList]
  | cons e t ih =>
      intro data rest pos hdrop hwf
      have hd : data.drop pos = writeSpineEntry e ++ ((t.map writeSpineEntry).flatten ++ rest) := by
        simpa [List.append_assoc] using hdrop
      have hre := readSpineEntry_spec hd (hwf e (by simp))
      have hnext := serialization.drop_step hd rfl
      simp only [List.length_cons, spineLutPositions, hre,
        ih data rest _ hnext (fun x hx => hwf x (by simp [hx])), List.map_cons, posList,
        List.flatten_cons, List.length_append, Prod.mk.injEq, RFile.mk.injEq]
      refine ⟨trivial, trivial, by omega⟩

theorem tocLutPositions_spec :
    ∀ (tes : List TocEntry) (data rest : List Nat) (pos : Nat),
    data.drop pos = tocScratch tes ++ rest →
    (∀ e ∈ tes, e.wf) →
    tocLutPositions tes.length ⟨data, pos⟩ =
      (posList pos (tes.map fun e => (writeTocEntry e).length),
       ⟨data, pos + (tocScratch tes).length⟩) := by
  intro tes
  induction tes with
  | nil =>
      intro data rest pos _ _
      simp [tocLutPositions, posList, tocScratch]
  | cons e t ih =>
      intro data rest pos hdrop hwf
      have hd : data.drop pos = writeTocEntry e ++ (tocScratch t ++ rest) := by
        simpa [tocScratch_cons, List.append_assoc] using hdrop
      have hre := readTocEntry_spec hd (hwf e (by simp))
      have hnext := serialization.drop_step hd rfl
      simp only [List.length_cons, tocLutPositions, hre,
        ih data rest _ hnext (fun x hx => hwf x (by simp [hx])), List.map_cons, posList,
        tocScratch_cons, List.length_append, Prod.mk.injEq, RFile.mk.injEq]
      refine ⟨trivial, trivial, by omega⟩

theorem mergeTocScan_spec (i t0 : Int) :
    ∀ (tes : List TocEntry) (j : Nat) (data rest : List Nat) (pos : Nat),
    data.drop pos = tocScratch tes ++ rest →
    (∀ e ∈ tes, e.wf) →
    mergeTocScan i tes.length j ⟨data, pos⟩ t0 =
      (match firstIdx (fun te => te.spineIndex = i) tes with
       | some k => ((j + k : Nat) : Int)
       | none => t0) := by
  intro tes
  induction tes with
  | nil =>
      intro j data rest pos _ _
      simp [mergeTocScan, firstIdx]
  | cons e t ih =>
      intro j data rest pos hdrop hwf
      have hd : data.drop pos = writeTocEntry e ++ (tocScratch t ++ rest) := by
        simpa [tocScratch_cons, List.append_assoc] using hdrop
      have hre := readTocEntry_spec hd (hwf e (by simp))
      have hnext := serialization.drop_step hd rfl
      simp only [List.length_cons, mergeTocScan, hre, firstIdx]
      by_cases hsp : e.spineIndex = i
      · simp [hsp]
      · simp only [hsp, if_neg, decide_eq_true_eq, if_false]
        rw [ih (j + 1) data rest _ hnext (fun x hx => hwf x (by simp [hx]))]
        cases hfi : firstIdx (fun te => te.spineIndex = i) t with
        | none => simp
        | some k =>
            simp only [Option.map_some']
            show (((j + 1) + k : Nat) : Int) = ((j + (k + 1) : Nat) : Int)
            omega

theorem firstIdx_scan_eq_finalTocIdx (tes : List TocEntry) (i : Nat) :
    (match firstIdx (fun te => te.spineIndex = (i : Int)) tes with
     | some k => ((0 + k : Nat) : Int)
     | none => (-1 : Int)) = finalTocIdx tes i := by
  unfold finalTocIdx
  cases firstIdx (fun te => te.spineIndex = (i : Int)) tes <;> simp

theorem tocCopyBlock_spec :
    ∀ (tes : List TocEntry) (data rest : List Nat) (pos : Nat),
    data.drop pos = tocScratch tes ++ rest →
    (∀ e ∈ tes, e.wf) →
    tocCopyBlock tes.length ⟨data, pos⟩ = tocScratch tes := by
  intro tes
  induction tes with
  | nil =>
      intro data rest pos _ _
      simp [tocCopyBlock, tocScratch]
  | cons e t ih =>
      intro data rest pos hdrop hwf
      have hd : data.drop pos = writeTocEntry e ++ (tocScratch t ++ rest) := by
        simpa [tocScratch_cons, List.append_assoc] using hdrop
      have hre := readTocEntry_spec hd (hwf e (by simp))
      have hnext := serialization.drop_step hd rfl
      simp only [List.length_cons, tocCopyBlock, hre, tocScratch_cons,
        ih data rest _ hnext (fun x hx => hwf x (by simp [hx]))]

theorem mergeSpineBlock_spec (zip : ZipFile) (tes : List TocEntry)
    (hwfT : ∀ e ∈ tes, e.wf) :
    ∀ (hrefs : List (List Nat)) (i cum : Nat) (data rest : List Nat) (pos : Nat),
    data.drop pos = spineScratch hrefs ++ rest →
    (∀ x ∈ hrefs, x.length < 2 ^ 32) →
    mergeSpineBlock zip (tocScratch tes) tes.length hrefs.length i cum ⟨data, pos⟩ =
      ((finalSpineAux zip tes hrefs i cum).map writeSpineEntry).flatten := by
  intro hrefs
  induction hrefs with
  | nil =>
      intro i cum data rest pos _ _
      simp [mergeSpineBlock, finalSpineAux]
  | cons h t ih =>
      intro i cum data rest pos hdrop hwf
      have hd : data.drop pos = writeSpineEntry (scratchEntry h) ++ (spineScratch t ++ rest) := by
        simpa [spineScratch_cons, List.append_assoc] using hdrop
      have hre := readSpineEntry_spec hd (scratchEntry_wf h (hwf h (by simp)))
      have hnext := serialization.drop_step hd rfl
      have hscan := mergeTocScan_spec (i : Int) (-1) tes 0 (tocScratch tes) [] 0 (by simp) hwfT
      rw [firstIdx_scan_eq_finalTocIdx tes i] at hscan
      simp only [List.length_cons, mergeSpineBlock, hre]
      have hsc1 : (scratchEntry h).tocIndex = -1 := rfl
      have hsc2 : (scratchEntry h).href = h := rfl
      have hsc3 : (scratchEntry h).cumulativeSize = 0 := rfl
      rw [hsc1, hsc2, hsc3, hscan]
      cases hz : zip.inflatedSize (FsHelpers.normalisePath h) with
      | some s =>
          simp only [finalSpineAux, hz, List.map_cons, List.flatten_cons]
          rw [ih (i + 1) (cum + s) data rest _ hnext (fun x hx => hwf x (by simp [hx]))]
      | none =>
          simp only [finalSpineAux, hz, List.map_cons, List.flatten_cons]
          rw [ih (i + 1) cum data rest _ hnext (fun x hx => hwf x (by simp [hx]))]

theorem firstIdx_lt {α : Type} (p : α → Bool) :
    ∀ (l : List α) (k : Nat), firstIdx p l = some k → k < l.length := by
  intro l
  induction l with
  | nil => intro k hk; simp [firstIdx] at hk
  | cons a t ih =>
      intro k hk
      simp only [List.length_cons]
      cases hpa : p a with
      | true =>
          simp [firstIdx, hpa] at hk
          omega
      | false =>
          simp [firstIdx, hpa, Option.map_eq_some'] at hk
          obtain ⟨m, hm, rfl⟩ := hk
          have := ih m hm
          omega

theorem resolveSpineIndex_bounds (hrefs : List (List Nat)) (href : List Nat) :
    -1 ≤ resolveSpineIndex hrefs href ∧
      resolveSpineIndex hrefs href < (hrefs.length : Int) := by
  unfold resolveSpineIndex
  cases hfi : firstIdx (fun h => h = href) hrefs with
  | none =>
      dsimp only
      constructor
      · norm_num
      · omega
  | some k =>
      dsimp only
      have := firstIdx_lt _ hrefs k hfi
      constructor <;> omega

theorem finalTocIdx_bounds (tes : List TocEntry) (i : Nat) :
    -1 ≤ finalTocIdx tes i ∧ finalTocIdx tes i < (tes.length : Int) := by
  unfold finalTocIdx
  cases hfi : firstIdx (fun te => te.spineIndex = (i : Int)) tes with
  | none =>
      dsimp only
      constructor
      · norm_num
      · omega
  | some k =>
      dsimp only
      have := firstIdx_lt _ tes k hfi
      constructor <;> omega

theorem resolvedTocList_length (hrefs : List (List Nat)) (ts : List TocInput) :
    (resolvedTocList hrefs ts).length = ts.length := by
  simp [resolvedTocList]

theorem resolvedTocList_wf (hrefs : List (List Nat)) (ts : List TocInput)
    (hts : ∀ t ∈ ts, t.title.length < 2 ^ 32 ∧ t.href.length < 2 ^ 32 ∧
      t.anchor.length < 2 ^ 32 ∧ t.level < 256)
    (hn : hrefs.length < 2 ^ 31) :
    ∀ e ∈ resolvedTocList hrefs ts, e.wf := by
  intro e he
  simp only [resolvedTocList, List.mem_map] at he
  obtain ⟨t, ht, rfl⟩ := he
  obtain ⟨h1, h2, h3, h4⟩ := hts t ht
  have hb := resolveSpineIndex_bounds hrefs t.href
  refine ⟨h1, h2, h3, h4, ?_, ?_⟩
  · show -2 ^ 31 ≤ resolveSpineIndex hrefs t.href
    omega
  · show resolveSpineIndex hrefs t.href < 2 ^ 31
    omega

theorem finalSpineAux_length (zip : ZipFile) (tes : List TocEntry) :
    ∀ (hrefs : List (List Nat)) (i cum : Nat),
    (finalSpineAux zip tes hrefs i cum).length = hrefs.length := by
  intro hrefs
  induction hrefs with
  | nil => intro i cum; simp [finalSpineAux]
  | cons h t ih =>
      intro i cum
      cases hz : zip.inflatedSize (FsHelpers.normalisePath h) <;>
        simp [finalSpineAux, hz, ih]

theorem finalSpineAux_href_sizes (zip : ZipFile) (tes : List TocEntry) :
    ∀ (hrefs : List (List Nat)) (i cum : Nat),
    (finalSpineAux zip tes hrefs i cum).map (fun e => e.href.length + 12) =
      hrefs.map (fun h => h.length + 12) := by
  intro hrefs
  induction hrefs with
  | nil => intro i cum; simp [finalSpineAux]
  | cons h t ih =>
      intro i cum
      cases hz : zip.inflatedSize (FsHelpers.normalisePath h) <;>
        simp [finalSpineAux, hz, ih]

theorem finalSpineAux_sizes (zip : ZipFile) (tes : List TocEntry)
    (hrefs : List (List Nat)) (i cum : Nat) :
    (finalSpineAux zip tes hrefs i cum).map (fun e => (writeSpineEntry e).length) =
      hrefs.map (fun h => h.length + 12) := by
  rw [show (fun e : SpineEntry => (writeSpineEntry e).length) =
    (fun e : SpineEntry => e.href.length + 12) from funext writeSpineEntry_length]
  exact finalSpineAux_href_sizes zip tes hrefs i cum

theorem finalSpineAux_wf (zip : ZipFile) (tes : List TocEntry)
    (hm : tes.length < 2 ^ 31) :
    ∀ (hrefs : List (List Nat)) (i cum : Nat),
    (∀ x ∈ hrefs, x.length < 2 ^ 32) →
    (∀ e ∈ finalSpineAux zip tes hrefs i cum, e.cumulativeSize < 2 ^ 32) →
    ∀ e ∈ finalSpineAux zip tes hrefs i cum, e.wf := by
  intro hrefs
  induction hrefs with
  | nil => intro i cum _ _ e he; simp [finalSpineAux] at he
  | cons h t ih =>
      intro i cum hwf hcum e he
      have hb := finalTocIdx_bounds tes i
      cases hz : zip.inflatedSize (FsHelpers.normalisePath h) with
      | some s =>
          simp only [finalSpineAux, hz, List.mem_cons] at he hcum
          rcases he with he | he
          · subst he
            refine ⟨hwf h (by simp), hcum _ (Or.inl rfl), ?_, ?_⟩
            · show -2 ^ 31 ≤ finalTocIdx tes i
              omega
            · show finalTocIdx tes i < 2 ^ 31
              omega
          · exact ih (i + 1) (cum + s) (fun x hx => hwf x (by simp [hx]))
              (fun x hx => hcum x (Or.inr hx)) e he
      | none =>
          simp only [finalSpineAux, hz, List.mem_cons] at he hcum
          rcases he with he | he
          · subst he
            refine ⟨hwf h (by simp), by norm_num, ?_, ?_⟩
            · show -2 ^ 31 ≤ finalTocIdx tes i
              omega
            · show finalTocIdx tes i < 2 ^ 31
              omega
          · exact ih (i + 1) cum (fun x hx => hwf x (by simp [hx]))
              (fun x hx => hcum x (Or.inr hx)) e he

theorem pow256_4 : (256 : Nat) ^ 4 = 2 ^ 32 := by norm_num

theorem lutRead_spec (g : Nat → Nat) :
    ∀ (ps : List Nat) (k : Nat) (data rest : List Nat) (pos : Nat),
    data.drop pos = (ps.map fun p => serialization.writePod 4 (g p)).flatten ++ rest →
    k < ps.length →
    (serialization.readPod 4 ⟨data, pos + 4 * k⟩).1 = g (ps.getD k 0) % 2 ^ 32 := by
  intro ps
  induction ps with
  | nil => intro k data rest pos _ hk; simp at hk
  | cons v t ih =>
      intro k data rest pos hdrop hk
      have hd : data.drop pos = serialization.writePod 4 (g v) ++
          ((t.map fun p => serialization.writePod 4 (g p)).flatten ++ rest) := by
        simpa [List.append_assoc] using hdrop
      cases k with
      | zero =>
          have := serialization.readPod_spec hd
          simp only [Nat.mul_zero, Nat.add_zero, this, List.getD, pow256_4]
          rfl
      | succ k =>
          have hnext : data.drop (pos + 4) =
              (t.map fun p => serialization.writePod 4 (g p)).flatten ++ rest :=
            serialization.drop_step hd (serialization.toBytesLE_length 4 (g v))
          have hrec := ih k data rest (pos + 4) hnext (by simpa using hk)
          have harith : pos + 4 * (k + 1) = (pos + 4) + 4 * k := by omega
          rw [harith, hrec]
          rfl

theorem posList_length (ls : List Nat) : ∀ (base : Nat), (posList base ls).length = ls.length := by
  induction ls with
  | nil => intro base; rfl
  | cons l t ih => intro base; simp [posList, ih]

theorem posList_getD (ls : List Nat) :
    ∀ (k base : Nat), k < ls.length →
    (posList base ls).getD k 0 = base + ((ls.take k).sum) := by
  induction ls with
  | nil => intro k base hk; simp at hk
  | cons l t ih =>
      intro k base hk
      cases k with
      | zero => simp [posList]
      | succ k =>
          have := ih k (base + l) (by simpa using hk)
          simp only [posList, List.getD_cons_succ, List.take, List.sum_cons]
          rw [this]
          omega

theorem blockReadSpine_spec :
    ∀ (es : List SpineEntry) (k : Nat) (data rest : List Nat) (pos : Nat),
    data.drop pos = (es.map writeSpineEntry).flatten ++ rest →
    (∀ e ∈ es, e.wf) →
    k < es.length →
    (readSpineEntry ⟨data,
        pos + ((es.map fun e => (writeSpineEntry e).length).take k).sum⟩).1 =
      es.getD k SpineEntry.empty := by
  intro es
  induction es with
  | nil => intro k data rest pos _ _ hk; simp at hk
  | cons e t ih =>
      intro k data rest pos hdrop hwf hk
      have hd : data.drop pos = writeSpineEntry e ++ ((t.map writeSpineEntry).flatten ++ rest) := by
        simpa [List.append_assoc] using hdrop
      cases k with
      | zero =>
          have hre := readSpineEntry_spec hd (hwf e (by simp))
          simp only [List.map_cons, List.take, List.sum_nil, Nat.add_zero, hre, List.getD]
          rfl
      | succ k =>
          have hnext : data.drop (pos + (writeSpineEntry e).length) =
              (t.map writeSpineEntry).flatten ++ rest :=
            serialization.drop_step hd rfl
          have hrec := ih k data rest (pos + (writeSpineEntry e).length) hnext
            (fun x hx => hwf x (by simp [hx])) (by simpa using hk)
          have harith : pos + ((((e :: t).map fun x => (writeSpineEntry x).length).take
              (k + 1)).sum) = (pos + (writeSpineEntry e).length) +
              (((t.map fun x => (writeSpineEntry x).length).take k).sum) := by
            simp only [List.map_cons, List.take, List.sum_cons]
            omega
          rw [harith, hrec]
          rfl

theorem blockReadToc_spec :
    ∀ (tes : List TocEntry) (k : Nat) (data rest : List Nat) (pos : Nat),
    data.drop pos = tocScratch tes ++ rest →
    (∀ e ∈ tes, e.wf) →
    k < tes.length →
    (readTocEntry ⟨data,
        pos + ((tes.map fun e => (writeTocEntry e).length).take k).sum⟩).1 =
      tes.getD k TocEntry.empty := by
  intro tes
  induction tes with
  | nil => intro k data rest pos _ _ hk; simp at hk
  | cons e t ih =>
      intro k data rest pos hdrop hwf hk
      have hd : data.drop pos = writeTocEntry e ++ (tocScratch t ++ rest) := by
        simpa [tocScratch_cons, List.append_assoc] using hdrop
      cases k with
      | zero =>
          have hre := readTocEntry_spec hd (hwf e (by simp))
          simp only [List.map_cons, List.take, List.sum_nil, Nat.add_zero, hre, List.getD]
          rfl
      | succ k =>
          have hnext : data.drop (pos + (writeTocEntry e).length) = tocScratch t ++ rest :=
            serialization.drop_step hd rfl
          have hrec := ih k data rest (pos + (writeTocEntry e).length) hnext
            (fun x hx => hwf x (by simp [hx])) (by simpa using hk)
          have harith : pos + ((((e :: t).map fun x => (writeTocEntry x).length).take
              (k + 1)).sum) = (pos + (writeTocEntry e).length) +
              (((t.map fun x => (writeTocEntry x).length).take k).sum) := by
            simp only [List.map_cons, List.take, List.sum_cons]
            omega
          rw [harith, hrec]
          rfl

theorem writePod_length (w n : Nat) : (serialization.writePod w n).length = w :=
  serialization.toBytesLE_length w n

theorem flatten_writePod4_length (g : Nat → Nat) (ps : List Nat) :
    ((ps.map fun p => serialization.writePod 4 (g p)).flatten).length = 4 * ps.length := by
  induction ps with
  | nil => rfl
  | cons v t ih =>
      simp only [List.map_cons, List.flatten_cons, List.length_append, ih,
        writePod_length, List.length_cons]
      omega

theorem spineScratch_length (hrefs : List (List Nat)) :
    (spineScratch hrefs).length = (hrefs.map fun h => h.length + 12).sum := by
  rw [spineScratch_flatten, List.length_flatten, List.map_map, List.map_map]
  congr 1
  apply List.map_congr_left
  intro h _
  simp [Function.comp, writeSpineEntry_length, scratchEntry]

theorem tocScratch_length (tes : List TocEntry) :
    (tocScratch tes).length = (tes.map fun e => (writeTocEntry e).length).sum := by
  rw [tocScratch, List.length_flatten, List.map_map]
  rfl

theorem finalBlock_length (zip : ZipFile) (tes : List TocEntry) (hrefs : List (List Nat))
    (i cum : Nat) :
    (((finalSpineAux zip tes hrefs i cum).map writeSpineEntry).flatten).length =
      (hrefs.map fun h => h.length + 12).sum := by
  rw [List.length_flatten, List.map_map]
  have : (finalSpineAux zip tes hrefs i cum).map (List.length ∘ writeSpineEntry) =
      (finalSpineAux zip tes hrefs i cum).map (fun e => (writeSpineEntry e).length) := rfl
  rw [this, finalSpineAux_sizes]

theorem sum_take_le (l : List Nat) (k : Nat) : (l.take k).sum ≤ l.sum := by
  have : (l.take k).sum + (l.drop k).sum = l.sum := by
    rw [← List.sum_append, List.take_append_drop]
  omega

theorem spineLut_scratch (hrefs : List (List Nat))
    (hwf : ∀ x ∈ hrefs, x.length < 2 ^ 32) :
    spineLutPositions hrefs.length ⟨spineScratch hrefs, 0⟩ =
      (posList 0 (hrefs.map fun h => h.length + 12),
       ⟨spineScratch hrefs, (spineScratch hrefs).length⟩) := by
  have hlen : hrefs.length = (hrefs.map scratchEntry).length := by simp
  have hget := spineLutPositions_spec (hrefs.map scratchEntry) (spineScratch hrefs) [] 0
    (by simp [spineScratch_flatten]) (by
      intro e he
      simp only [List.mem_map] at he
      obtain ⟨h, hh, rfl⟩ := he
      exact scratchEntry_wf h (hwf h hh))
  rw [hlen, hget]
  have hsizes : (hrefs.map scratchEntry).map (fun e => (writeSpineEntry e).length) =
      hrefs.map fun h => h.length + 12 := by
    rw [List.map_map]
    apply List.map_congr_left
    intro h _
    simp [Function.comp, writeSpineEntry_length, scratchEntry]
  rw [hsizes, ← spineScratch_flatten]
  simp

theorem tocLut_scratch (tes : List TocEntry) (hwf : ∀ e ∈ tes, e.wf) :
    tocLutPositions tes.length ⟨tocScratch tes, 0⟩ =
      (posList 0 (tes.map fun e => (writeTocEntry e).length),
       ⟨tocScratch tes, (tocScratch tes).length⟩) := by
  have hget := tocLutPositions_spec tes (tocScratch tes) [] 0 (by simp) hwf
  rw [hget]
  simp

theorem load_spec (lo sc tc : Nat) (t a c rest data : List Nat)
    (hdata : data = serialization.writePod 1 1 ++ (serialization.writePod 4 lo ++
      (serialization.writePod 4 sc ++ (serialization.writePod 4 tc ++
      (serialization.writeString t ++ (serialization.writeString a ++
      (serialization.writeString c ++ rest)))))))
    (hlo : lo < 2 ^ 32) (hsc : sc < 2 ^ 32) (htc : tc < 2 ^ 32)
    (ht : t.length < 2 ^ 32) (ha : a.length < 2 ^ 32) (hc : c.length < 2 ^ 32) :
    load data = some ⟨lo, sc, tc, t, a, c, data⟩ := by
  have h0 : data.drop 0 = serialization.writePod 1 1 ++ (serialization.writePod 4 lo ++
      (serialization.writePod 4 sc ++ (serialization.writePod 4 tc ++
      (serialization.writeString t ++ (serialization.writeString a ++
      (serialization.writeString c ++ rest)))))) := by
    rw [List.drop_zero]; exact hdata
  have hv := serialization.readPod_spec h0
  have h1 := serialization.drop_step h0 (serialization.toBytesLE_length 1 1)
  have hloR := serialization.readPod_spec h1
  have h2 := serialization.drop_step h1 (serialization.toBytesLE_length 4 lo)
  have hscR := serialization.readPod_spec h2
  have h3 := serialization.drop_step h2 (serialization.toBytesLE_length 4 sc)
  have htcR := serialization.readPod_spec h3
  have h4 := serialization.drop_step h3 (serialization.toBytesLE_length 4 tc)
  have htR := serialization.readString_spec h4 ht
  have h5 := serialization.drop_step h4 (serialization.writeString_length t)
  rw [← Nat.add_assoc] at h5
  have haR := serialization.readString_spec h5 ha
  have h6 := serialization.drop_step h5 (serialization.writeString_length a)
  rw [← Nat.add_assoc] at h6
  have hcR := serialization.readString_spec h6 hc
  have hlo' : lo % 256 ^ 4 = lo := by rw [pow256_4]; omega
  have hsc' : sc % 256 ^ 4 = sc := by rw [pow256_4]; omega
  have htc' : tc % 256 ^ 4 = tc := by rw [pow256_4]; omega
  unfold load
  rw [hv]
  simp only [hlo', hsc', htc']
  norm_num [bookCacheVersion]
  rw [hloR, hscR, htcR, htR, haR, hcR]
  simp [hlo', hsc', htc']
  exact ⟨by omega, by omega, by omega⟩

/-- The LUT byte offset as `buildBookBin` computes it: header A plus the
metadata block. -/
def lutOffD (md : BookMetadata) : Nat :=
  1 + 4 + 4 + 4 + (md.title.length + md.author.length + md.coverItemHref.length + 4 * 3)

/-- The LUT byte size: one 4-byte slot per spine and per TOC entry. -/
def lutSizeD (hrefs : List (List Nat)) (ts : List TocInput) : Nat :=
  4 * hrefs.length + 4 * ts.length

/-- Header A plus metadata block of the built book.bin. -/
def headerMetaBytes (hrefs : List (List Nat)) (ts : List TocInput) (md : BookMetadata) :
    List Nat :=
  serialization.writePod 1 bookCacheVersion ++ serialization.writePod 4 (lutOffD md) ++
    serialization.writePod 4 hrefs.length ++ serialization.writePod 4 ts.length ++
    serialization.writeString md.title ++ serialization.writeString md.author ++
    serialization.writeString md.coverItemHref

/-- The spine LUT block of the built book.bin. -/
def spineLutBytes (hrefs : List (List Nat)) (ts : List TocInput) (md : BookMetadata) :
    List Nat :=
  ((posList 0 (hrefs.map fun h => h.length + 12)).map fun p =>
    serialization.writePod 4 (p + lutOffD md + lutSizeD hrefs ts)).flatten

/-- The TOC LUT block of the built book.bin. -/
def tocLutBytes (hrefs : List (List Nat)) (ts : List TocInput) (md : BookMetadata) :
    List Nat :=
  ((posList 0 ((resolvedTocList hrefs ts).map fun e => (writeTocEntry e).length)).map fun p =>
    serialization.writePod 4 (p + lutOffD md + lutSizeD hrefs ts +
      (spineScratch hrefs).length)).flatten

/-- The full byte image of a successfully built book.bin. -/
def bookBytes (hrefs : List (List Nat)) (ts : List TocInput) (zip : ZipFile)
    (md : BookMetadata) : List Nat :=
  headerMetaBytes hrefs ts md ++ spineLutBytes hrefs ts md ++ tocLutBytes hrefs ts md ++
    ((finalSpineList zip hrefs ts).map writeSpineEntry).flatten ++
    tocScratch (resolvedTocList hrefs ts)

theorem tocLut_resolved (hrefs : List (List Nat)) (ts : List TocInput)
    (hwfTes : ∀ e ∈ resolvedTocList hrefs ts, e.wf) :
    tocLutPositions ts.length ⟨tocScratch (resolvedTocList hrefs ts), 0⟩ =
      (posList 0 ((resolvedTocList hrefs ts).map fun e => (writeTocEntry e).length),
       ⟨tocScratch (resolvedTocList hrefs ts),
        (tocScratch (resolvedTocList hrefs ts)).length⟩) := by
  rw [← resolvedTocList_length hrefs ts]
  exact tocLut_scratch (resolvedTocList hrefs ts) hwfTes

theorem mergeSpineBlock_resolved (zip : ZipFile) (hrefs : List (List Nat)) (ts : List TocInput)
    (hwfH : ∀ x ∈ hrefs, x.length < 2 ^ 32)
    (hwfTes : ∀ e ∈ resolvedTocList hrefs ts, e.wf) :
    mergeSpineBlock zip (tocScratch (resolvedTocList hrefs ts)) ts.length hrefs.length 0 0
      ⟨spineScratch hrefs, 0⟩ =
      ((finalSpineList zip hrefs ts).map writeSpineEntry).flatten := by
  rw [← resolvedTocList_length hrefs ts]
  exact mergeSpineBlock_spec zip _ hwfTes hrefs 0 0 (spineScratch hrefs) [] 0 (by simp) hwfH

theorem tocCopy_resolved (hrefs : List (List Nat)) (ts : List TocInput)
    (hwfTes : ∀ e ∈ resolvedTocList hrefs ts, e.wf) :
    tocCopyBlock ts.length ⟨tocScratch (resolvedTocList hrefs ts), 0⟩ =
      tocScratch (resolvedTocList hrefs ts) := by
  rw [← resolvedTocList_length hrefs ts]
  exact tocCopyBlock_spec _ _ [] 0 (by simp) hwfTes

theorem builtBook_success (hrefs : List (List Nat)) (ts : List TocInput) (zip : ZipFile)
    (md : BookMetadata)
    (hwfH : ∀ x ∈ hrefs, x.length < 2 ^ 32)
    (hwfTes : ∀ e ∈ resolvedTocList hrefs ts, e.wf)
    (hopen : zip.canOpen = true) (hstats : zip.canLoadStats = true) :
    builtBook hrefs ts zip md = (true, bookBytes hrefs ts zip md) := by
  obtain ⟨hbm, hsc, htc, hsd, htd⟩ := runBuild_fields hrefs ts hwfH
  unfold builtBook buildBookBin
  dsimp only
  rw [hsc, htc, hsd, htd]
  rw [if_neg (by rw [hopen]; simp), if_neg (by rw [hstats]; simp)]
  rw [spineLut_scratch hrefs hwfH, tocLut_resolved hrefs ts hwfTes,
    mergeSpineBlock_resolved zip hrefs ts hwfH hwfTes, tocCopy_resolved hrefs ts hwfTes]
  rfl

theorem headerMetaBytes_length (hrefs : List (List Nat)) (ts : List TocInput)
    (md : BookMetadata) : (headerMetaBytes hrefs ts md).length = lutOffD md := by
  simp [headerMetaBytes, writePod_length, serialization.writeString_length, lutOffD]
  omega

theorem spineLutBytes_length (hrefs : List (List Nat)) (ts : List TocInput)
    (md : BookMetadata) : (spineLutBytes hrefs ts md).length = 4 * hrefs.length := by
  unfold spineLutBytes
  rw [flatten_writePod4_length (fun p => p + lutOffD md + lutSizeD hrefs ts), posList_length]
  simp

theorem tocLutBytes_length (hrefs : List (List Nat)) (ts : List TocInput)
    (md : BookMetadata) : (tocLutBytes hrefs ts md).length = 4 * ts.length := by
  unfold tocLutBytes
  rw [flatten_writePod4_length
    (fun p => p + lutOffD md + lutSizeD hrefs ts + (spineScratch hrefs).length), posList_length]
  simp [resolvedTocList_length]

theorem finalSpineList_length (zip : ZipFile) (hrefs : List (List Nat)) (ts : List TocInput) :
    (finalSpineList zip hrefs ts).length = hrefs.length :=
  finalSpineAux_length zip (resolvedTocList hrefs ts) hrefs 0 0

theorem finalBlock_length' (zip : ZipFile) (hrefs : List (List Nat)) (ts : List TocInput) :
    (((finalSpineList zip hrefs ts).map writeSpineEntry).flatten).length =
      (spineScratch hrefs).length := by
  rw [spineScratch_length]
  exact finalBlock_length zip (resolvedTocList hrefs ts) hrefs 0 0

theorem bookBytes_length (hrefs : List (List Nat)) (ts : List TocInput) (zip : ZipFile)
    (md : BookMetadata) :
    (bookBytes hrefs ts zip md).length = lutOffD md + lutSizeD hrefs ts +
      (spineScratch hrefs).length + (tocScratch (resolvedTocList hrefs ts)).length := by
  unfold bookBytes
  simp only [List.length_append, headerMetaBytes_length, spineLutBytes_length,
    tocLutBytes_length, finalBlock_length', lutSizeD]
  omega

theorem bookBytes_drop_spineLut (hrefs : List (List Nat)) (ts : List TocInput) (zip : ZipFile)
    (md : BookMetadata) :
    (bookBytes hrefs ts zip md).drop (lutOffD md) =
      spineLutBytes hrefs ts md ++ (tocLutBytes hrefs ts md ++
        (((finalSpineList zip hrefs ts).map writeSpineEntry).flatten ++
          tocScratch (resolvedTocList hrefs ts))) := by
  have h0 : (bookBytes hrefs ts zip md).drop 0 = headerMetaBytes hrefs ts md ++
      (spineLutBytes hrefs ts md ++ (tocLutBytes hrefs ts md ++
        (((finalSpineList zip hrefs ts).map writeSpineEntry).flatten ++
          tocScratch (resolvedTocList hrefs ts)))) := by
    rw [List.drop_zero]
    unfold bookBytes
    simp [List.append_assoc]
  have := serialization.drop_step h0 (headerMetaBytes_length hrefs ts md)
  simpa using this

theorem bookBytes_drop_tocLut (hrefs : List (List Nat)) (ts : List TocInput) (zip : ZipFile)
    (md : BookMetadata) :
    (bookBytes hrefs ts zip md).drop (lutOffD md + 4 * hrefs.length) =
      tocLutBytes hrefs ts md ++
        (((finalSpineList zip hrefs ts).map writeSpineEntry).flatten ++
          tocScratch (resolvedTocList hrefs ts)) := by
  have h1 := bookBytes_drop_spineLut hrefs ts zip md
  have := serialization.drop_step h1 (spineLutBytes_length hrefs ts md)
  simpa using this

theorem bookBytes_drop_spineData (hrefs : List (List Nat)) (ts : List TocInput) (zip : ZipFile)
    (md : BookMetadata) :
    (bookBytes hrefs ts zip md).drop (lutOffD md + lutSizeD hrefs ts) =
      ((finalSpineList zip hrefs ts).map writeSpineEntry).flatten ++
        tocScratch (resolvedTocList hrefs ts) := by
  have h1 := bookBytes_drop_tocLut hrefs ts zip md
  have h2 := serialization.drop_step h1 (tocLutBytes_length hrefs ts md)
  have harith : lutOffD md + 4 * hrefs.length + 4 * ts.length =
      lutOffD md + lutSizeD hrefs ts := by
    unfold lutSizeD
    omega
  rw [harith] at h2
  exact h2

theorem bookBytes_drop_tocData (hrefs : List (List Nat)) (ts : List TocInput) (zip : ZipFile)
    (md : BookMetadata) :
    (bookBytes hrefs ts zip md).drop
        (lutOffD md + lutSizeD hrefs ts + (spineScratch hrefs).length) =
      tocScratch (resolvedTocList hrefs ts) ++ [] := by
  have h1 := bookBytes_drop_spineData hrefs ts zip md
  have h2 := serialization.drop_step h1 (finalBlock_length' zip hrefs ts)
  rw [h2, List.append_nil]

theorem builtBook_master (hrefs : List (List Nat)) (ts : List TocInput) (zip : ZipFile)
    (md : BookMetadata) (hwf : wfInputs hrefs ts md)
    (hopen : zip.canOpen = true) (hstats : zip.canLoadStats = true)
    (hlen : (bookBytes hrefs ts zip md).length < 2 ^ 32)
    (hcum : ∀ e ∈ finalSpineList zip hrefs ts, e.cumulativeSize < 2 ^ 32) :
    builtBook hrefs ts zip md = (true, bookBytes hrefs ts zip md) ∧
    load (bookBytes hrefs ts zip md) =
      some ⟨lutOffD md, hrefs.length, ts.length, md.title, md.author, md.coverItemHref,
        bookBytes hrefs ts zip md⟩ ∧
    (∀ k, k < hrefs.length →
      getSpineEntry ⟨lutOffD md, hrefs.length, ts.length, md.title, md.author,
          md.coverItemHref, bookBytes hrefs ts zip md⟩ (k : Int) =
        (finalSpineList zip hrefs ts).getD k SpineEntry.empty) ∧
    (∀ k, k < ts.length →
      getTocEntry ⟨lutOffD md, hrefs.length, ts.length, md.title, md.author,
          md.coverItemHref, bookBytes hrefs ts zip md⟩ (k : Int) =
        (resolvedTocList hrefs ts).getD k TocEntry.empty) := by
  obtain ⟨hwfH, hwfT, hmt, hma, hmc, hN, hM⟩ := hwf
  have hwfTes := resolvedTocList_wf hrefs ts hwfT hN
  have hMtes := resolvedTocList_length hrefs ts
  have hBlen := bookBytes_length hrefs ts zip md
  have hwfF : ∀ e ∈ finalSpineList zip hrefs ts, e.wf :=
    finalSpineAux_wf zip (resolvedTocList hrefs ts) (by omega) hrefs 0 0 hwfH hcum
  refine ⟨builtBook_success hrefs ts zip md hwfH hwfTes hopen hstats, ?_, ?_, ?_⟩
  · have hform : bookBytes hrefs ts zip md =
        serialization.writePod 1 1 ++ (serialization.writePod 4 (lutOffD md) ++
        (serialization.writePod 4 hrefs.length ++ (serialization.writePod 4 ts.length ++
        (serialization.writeString md.title ++ (serialization.writeString md.author ++
        (serialization.writeString md.coverItemHref ++
          (spineLutBytes hrefs ts md ++ (tocLutBytes hrefs ts md ++
            (((finalSpineList zip hrefs ts).map writeSpineEntry).flatten ++
              tocScratch (resolvedTocList hrefs ts)))))))))) := by
      unfold bookBytes headerMetaBytes bookCacheVersion
      simp [List.append_assoc]
    exact load_spec (lutOffD md) hrefs.length ts.length md.title md.author md.coverItemHref
      _ (bookBytes hrefs ts zip md) hform (by omega) (by omega) (by omega) hmt hma hmc
  · intro k hk
    unfold getSpineEntry
    rw [if_neg (by push_cast; omega)]
    dsimp only
    have htn : ((k : Int)).toNat = k := by simp
    rw [htn]
    have hd1 := bookBytes_drop_spineLut hrefs ts zip md
    unfold spineLutBytes at hd1
    have hk1 : k < (posList 0 (hrefs.map fun h => h.length + 12)).length := by
      rw [posList_length]
      simpa using hk
    have hlut := lutRead_spec (fun p => p + lutOffD md + lutSizeD hrefs ts)
      (posList 0 (hrefs.map fun h => h.length + 12)) k _ _ (lutOffD md) hd1 hk1
    rw [posList_getD _ k 0 (by rw [List.length_map]; exact hk)] at hlut
    have hsum : (((hrefs.map fun h => h.length + 12).take k).sum) ≤
        (spineScratch hrefs).length := by
      rw [spineScratch_length]
      exact sum_take_le _ k
    have hval : ((fun p => p + lutOffD md + lutSizeD hrefs ts)
        (0 + ((hrefs.map fun h => h.length + 12).take k).sum)) % 2 ^ 32 =
        lutOffD md + lutSizeD hrefs ts +
          (((hrefs.map fun h => h.length + 12).take k).sum) := by
      show (0 + ((hrefs.map fun h => h.length + 12).take k).sum + lutOffD md +
        lutSizeD hrefs ts) % 2 ^ 32 = _
      rw [Nat.mod_eq_of_lt (by omega)]
      omega
    rw [hval] at hlut
    rw [hlut]
    have hd3 := bookBytes_drop_spineData hrefs ts zip md
    have hkF : k < (finalSpineList zip hrefs ts).length := by
      rw [finalSpineList_length]
      exact hk
    have hblock := blockReadSpine_spec (finalSpineList zip hrefs ts) k
      (bookBytes hrefs ts zip md) (tocScratch (resolvedTocList hrefs ts))
      (lutOffD md + lutSizeD hrefs ts) hd3 hwfF hkF
    rw [show ((finalSpineList zip hrefs ts).map fun e => (writeSpineEntry e).length) =
      hrefs.map fun h => h.length + 12 from
      finalSpineAux_sizes zip (resolvedTocList hrefs ts) hrefs 0 0] at hblock
    exact hblock
  · intro k hk
    unfold getTocEntry
    rw [if_neg (by push_cast; omega)]
    dsimp only
    have htn : ((k : Int)).toNat = k := by simp
    rw [htn]
    have hd2 := bookBytes_drop_tocLut hrefs ts zip md
    unfold tocLutBytes at hd2
    have hk1 : k < (posList 0
        ((resolvedTocList hrefs ts).map fun e => (writeTocEntry e).length)).length := by
      rw [posList_length, List.length_map, hMtes]
      exact hk
    have harith : lutOffD md + 4 * hrefs.length + 4 * k =
        (lutOffD md + 4 * hrefs.length) + 4 * k := by omega
    rw [harith]
    have hlut := lutRead_spec
      (fun p => p + lutOffD md + lutSizeD hrefs ts + (spineScratch hrefs).length)
      (posList 0 ((resolvedTocList hrefs ts).map fun e => (writeTocEntry e).length)) k _ _
      (lutOffD md + 4 * hrefs.length) hd2 hk1
    rw [posList_getD _ k 0 (by rw [List.length_map, hMtes]; exact hk)] at hlut
    have hsum : ((((resolvedTocList hrefs ts).map fun e =>
        (writeTocEntry e).length).take k).sum) ≤
        (tocScratch (resolvedTocList hrefs ts)).length := by
      rw [tocScratch_length]
      exact sum_take_le _ k
    have hval : ((fun p => p + lutOffD md + lutSizeD hrefs ts + (spineScratch hrefs).length)
        (0 + (((resolvedTocList hrefs ts).map fun e => (writeTocEntry e).length).take k).sum))
        % 2 ^ 32 =
        (lutOffD md + lutSizeD hrefs ts + (spineScratch hrefs).length) +
          ((((resolvedTocList hrefs ts).map fun e => (writeTocEntry e).length).take k).sum) := by
      show (0 + (((resolvedTocList hrefs ts).map fun e =>
        (writeTocEntry e).length).take k).sum + lutOffD md + lutSizeD hrefs ts +
        (spineScratch hrefs).length) % 2 ^ 32 = _
      rw [Nat.mod_eq_of_lt (by omega)]
      omega
    rw [hval] at hlut
    rw [hlut]
    have hd4 := bookBytes_drop_tocData hrefs ts zip md
    have hkT : k < (resolvedTocList hrefs ts).length := by
      rw [hMtes]
      exact hk
    exact blockReadToc_spec (resolvedTocList hrefs ts) k (bookBytes hrefs ts zip md) []
      (lutOffD md + lutSizeD hrefs ts + (spineScratch hrefs).length) hd4 hwfTes hkT

theorem firstIdx_none_iff {α : Type} (p : α → Bool) :
    ∀ (l : List α), firstIdx p l = none ↔ ∀ x ∈ l, ¬p x := by
  intro l
  induction l with
  | nil => simp [firstIdx]
  | cons a t ih =>
      cases hpa : p a with
      | true => simp [firstIdx, hpa]
      | false => simp [firstIdx, hpa, ih]

theorem firstIdx_some_getD {α : Type} (p : α → Bool) (d : α) :
    ∀ (l : List α) (k : Nat), firstIdx p l = some k →
    p (l.getD k d) = true ∧ ∀ j, j < k → ¬p (l.getD j d) := by
  intro l
  induction l with
  | nil => intro k hk; simp [firstIdx] at hk
  | cons a t ih =>
      intro k hk
      cases hpa : p a with
      | true =>
          simp [firstIdx, hpa] at hk
          subst hk
          exact ⟨by simpa using hpa, by omega⟩
      | false =>
          simp [firstIdx, hpa, Option.map_eq_some'] at hk
          obtain ⟨m, hm, rfl⟩ := hk
          obtain ⟨h1, h2⟩ := ih m hm
          refine ⟨by simpa using h1, ?_⟩
          intro j hj
          cases j with
          | zero => simpa using hpa
          | succ j => simpa using h2 j (by omega)

theorem finalSpineAux_getD_tocIdx (zip : ZipFile) (tes : List TocEntry) :
    ∀ (hrefs : List (List Nat)) (i cum k : Nat), k < hrefs.length →
    ((finalSpineAux zip tes hrefs i cum).getD k SpineEntry.empty).tocIndex =
      finalTocIdx tes (i + k) := by
  intro hrefs
  induction hrefs with
  | nil => intro i cum k hk; simp at hk
  | cons h t ih =>
      intro i cum k hk
      cases hz : zip.inflatedSize (FsHelpers.normalisePath h) with
      | some s =>
          cases k with
          | zero => simp [finalSpineAux, hz]
          | succ k =>
              simp only [finalSpineAux, hz, List.getD_cons_succ]
              rw [ih (i + 1) (cum + s) k (by simpa using hk)]
              congr 1
              omega
      | none =>
          cases k with
          | zero => simp [finalSpineAux, hz]
          | succ k =>
              simp only [finalSpineAux, hz, List.getD_cons_succ]
              rw [ih (i + 1) cum k (by simpa using hk)]
              congr 1
              omega

theorem finalSpineAux_getD_href (zip : ZipFile) (tes : List TocEntry) :
    ∀ (hrefs : List (List Nat)) (i cum k : Nat), k < hrefs.length →
    ((finalSpineAux zip tes hrefs i cum).getD k SpineEntry.empty).href =
      hrefs.getD k [] := by
  intro hrefs
  induction hrefs with
  | nil => intro i cum k hk; simp at hk
  | cons h t ih =>
      intro i cum k hk
      cases hz : zip.inflatedSize (FsHelpers.normalisePath h) with
      | some s =>
          cases k with
          | zero => simp [finalSpineAux, hz]
          | succ k =>
              simp only [finalSpineAux, hz, List.getD_cons_succ]
              exact ih (i + 1) (cum + s) k (by simpa using hk)
      | none =>
          cases k with
          | zero => simp [finalSpineAux, hz]
          | succ k =>
              simp only [finalSpineAux, hz, List.getD_cons_succ]
              exact ih (i + 1) cum k (by simpa using hk)

theorem finalSpineAux_getD_cum (zip : ZipFile) (tes : List TocEntry) (szf : List Nat → Nat) :
    ∀ (hrefs : List (List Nat)) (i cum : Nat),
    (∀ h ∈ hrefs, zip.inflatedSize (FsHelpers.normalisePath h) = some (szf h)) →
    ∀ k, k < hrefs.length →
    ((finalSpineAux zip tes hrefs i cum).getD k SpineEntry.empty).cumulativeSize =
      cum + ((hrefs.take (k + 1)).map szf).sum := by
  intro hrefs
  induction hrefs with
  | nil => intro i cum _ k hk; simp at hk
  | cons h t ih =>
      intro i cum hz k hk
      have hzh : zip.inflatedSize (FsHelpers.normalisePath h) = some (szf h) :=
        hz h (by simp)
      cases k with
      | zero => simp [finalSpineAux, hzh]
      | succ k =>
          simp only [finalSpineAux, hzh, List.getD_cons_succ, List.take, List.map_cons,
            List.sum_cons]
          rw [ih (i + 1) (cum + szf h) (fun x hx => hz x (by simp [hx])) k (by simpa using hk)]
          omega

theorem resolvedTocList_getD (hrefs : List (List Nat)) :
    ∀ (ts : List TocInput) (k : Nat), k < ts.length →
    (resolvedTocList hrefs ts).getD k TocEntry.empty =
      ⟨(ts.getD k ⟨[], [], [], 0⟩).title, (ts.getD k ⟨[], [], [], 0⟩).href,
       (ts.getD k ⟨[], [], [], 0⟩).anchor, (ts.getD k ⟨[], [], [], 0⟩).level,
       resolveSpineIndex hrefs (ts.getD k ⟨[], [], [], 0⟩).href⟩ := by
  intro ts
  induction ts with
  | nil => intro k hk; simp at hk
  | cons t rest ih =>
      intro k hk
      cases k with
      | zero => simp [resolvedTocList]
      | succ k =>
          have : resolvedTocList hrefs (t :: rest) =
              (⟨t.title, t.href, t.anchor, t.level, resolveSpineIndex hrefs t.href⟩ : TocEntry)
                :: resolvedTocList hrefs rest := rfl
          simp only [this, List.getD_cons_succ]
          exact ih k (by simpa using hk)

theorem resolveSpineIndex_notMem (hrefs : List (List Nat)) (href : List Nat)
    (h : href ∉ hrefs) : resolveSpineIndex hrefs href = -1 := by
  unfold resolveSpineIndex
  have : firstIdx (fun x => x = href) hrefs = none := by
    rw [firstIdx_none_iff]
    intro x hx
    simp only [decide_eq_true_eq]
    intro hxe
    exact h (hxe ▸ hx)
  rw [this]

theorem sum_take_mono (l : List Nat) (a b : Nat) (hab : a ≤ b) :
    (l.take a).sum ≤ (l.take b).sum := by
  have h1 : (l.take b).take a = l.take a := by
    rw [List.take_take]
    congr 1
    omega
  calc (l.take a).sum = ((l.take b).take a).sum := by rw [h1]
    _ ≤ (l.take b).sum := sum_take_le _ a

end BookMetadataCache

namespace FsHelpers

theorem normaliseAux_inv :
    ∀ (path : List Nat) (comps : List (List Nat)) (comp : List Nat),
    (∀ c ∈ comps, c ≠ [] ∧ c ≠ dotdotComp) →
    (∀ c ∈ normaliseAux path comps comp, c ≠ []) ∧
    (∀ c ∈ (normaliseAux path comps comp).dropLast, c ≠ dotdotComp) := by
  intro path
  induction path with
  | nil =>
      intro comps comp hinv
      simp only [normaliseAux]
      by_cases hc : comp = []
      · rw [if_pos hc]
        exact ⟨fun c hcm => (hinv c hcm).1,
          fun c hcm => (hinv c (List.dropLast_subset _ hcm)).2⟩
      · rw [if_neg hc]
        constructor
        · intro c hcm
          rcases List.mem_append.mp hcm with h | h
          · exact (hinv c h).1
          · simp only [List.mem_singleton] at h
            subst h
            exact hc
        · intro c hcm
          rw [List.dropLast_concat] at hcm
          exact (hinv c hcm).2
  | cons b rest ih =>
      intro comps comp hinv
      simp only [normaliseAux]
      by_cases hb : b = slashByte
      · rw [if_pos hb]
        by_cases hc : comp = []
        · rw [if_pos hc]
          exact ih comps [] hinv
        · rw [if_neg hc]
          by_cases hdd : comp = dotdotComp
          · rw [if_pos hdd]
            exact ih comps.dropLast [] (fun c hcm => hinv c (List.dropLast_subset _ hcm))
          · rw [if_neg hdd]
            refine ih (comps ++ [comp]) [] ?_
            intro c hcm
            rcases List.mem_append.mp hcm with h | h
            · exact hinv c h
            · simp only [List.mem_singleton] at h
              subst h
              exact ⟨hc, hdd⟩
      · rw [if_neg hb]
        exact ih comps (comp ++ [b]) hinv

end FsHelpers

namespace ContentOpfParser

theorem writeItemPair_length (p : List Nat × List Nat) :
    (writeItemPair p).length = 8 + p.1.length + p.2.length := by
  simp [writeItemPair, serialization.writeString_length]
  omega

theorem itemStore_length_ge (pairs : List (List Nat × List Nat)) :
    pairs.length ≤ ((pairs.map writeItemPair).flatten).length := by
  induction pairs with
  | nil => simp
  | cons p rest ih =>
      simp only [List.map_cons, List.flatten_cons, List.length_append, List.length_cons,
        writeItemPair_length]
      omega

theorem scanItemStore_spec (idref : List Nat) :
    ∀ (pairs : List (List Nat × List Nat)) (data : List Nat) (pos fuel : Nat),
    pairs.length ≤ fuel →
    pos ≤ data.length →
    data.drop pos = (pairs.map writeItemPair).flatten →
    (∀ pr ∈ pairs, pr.1.length < 2 ^ 32 ∧ pr.2.length < 2 ^ 32) →
    scanItemStore fuel ⟨data, pos⟩ idref =
      (match BookMetadataCache.firstIdx (fun pr => pr.1 = idref) pairs with
       | some k => some (pairs.getD k ([], [])).2
       | none => none) := by
  intro pairs
  induction pairs with
  | nil =>
      intro data pos fuel _ hpos hdrop _
      have hnd : data.length - pos = 0 := by
        have := congrArg List.length hdrop
        simpa [List.length_drop] using this
      cases fuel with
      | zero => simp [scanItemStore, BookMetadataCache.firstIdx]
      | succ fuel =>
          simp only [scanItemStore, BookMetadataCache.firstIdx]
          rw [if_neg (by omega)]
  | cons p rest ih =>
      intro data pos fuel hfuel hpos hdrop hwf
      cases fuel with
      | zero => simp at hfuel
      | succ fuel =>
          have hlen : (data.drop pos).length =
              ((p :: rest).map writeItemPair).flatten.length := by rw [hdrop]
          simp only [List.length_drop, List.map_cons, List.flatten_cons, List.length_append,
            writeItemPair_length] at hlen
          have havail : pos < data.length := by omega
          have hd : data.drop pos = serialization.writeString p.1 ++
              (serialization.writeString p.2 ++ (rest.map writeItemPair).flatten) := by
            rw [hdrop]
            simp [writeItemPair, List.append_assoc]
          have hwp := hwf p (by simp)
          have hid := serialization.readString_spec hd hwp.1
          have hd2 := serialization.drop_step hd (serialization.writeString_length p.1)
          rw [← Nat.add_assoc] at hd2
          have hhr := serialization.readString_spec hd2 hwp.2
          have hd3 := serialization.drop_step hd2 (serialization.writeString_length p.2)
          rw [← Nat.add_assoc] at hd3
          simp only [scanItemStore, BookMetadataCache.firstIdx]
          rw [if_pos havail, hid, hhr]
          by_cases heq : p.1 = idref
          · simp [heq]
          · have hne : (p.1 = idref) = False := by simp [heq]
            simp only [heq, if_neg, decide_eq_true_eq, if_false]
            have hpos3 : pos + 4 + p.1.length + 4 + p.2.length ≤ data.length := by
              omega
            rw [ih data (pos + 4 + p.1.length + 4 + p.2.length) fuel
              (by simpa using hfuel) hpos3 hd3 (fun x hx => hwf x (by simp [hx]))]
            cases hfi : BookMetadataCache.firstIdx (fun pr => pr.1 = idref) rest with
            | none => simp
            | some k => simp

end ContentOpfParser

namespace BookMetadataCache

/-- Demo archive: two spine items of 1000 and 1500 inflated bytes. -/
def zipDemo : ZipFile :=
  ⟨true, true, fun p => if p = [99, 49] then some 1000
    else if p = [99, 50] then some 1500 else none⟩

/-- Demo spine hrefs ("c1", "c2" as bytes). -/
def hrefsDemo : List (List Nat) := [[99, 49], [99, 50]]

/-- Demo TOC inputs: one entry targeting the first spine item. -/
def tsDemo : List TocInput := [⟨[84, 49], [99, 49], [], 1⟩]

/-- Demo TOC inputs whose href matches no spine item. -/
def tsMissDemo : List TocInput := [⟨[84], [122], [], 1⟩]

/-- Demo book metadata. -/
def mdDemo : BookMetadata := ⟨[116], [], [99]⟩

/-- Demo archive that reports no size for the second spine item. -/
def zipMissDemo : ZipFile :=
  ⟨true, true, fun p => if p = [99, 49] then some 1000 else none⟩

/-- Demo archive whose `open` fails. -/
def zipClosedDemo : ZipFile := ⟨false, true, fun _ => none⟩

/-- Builder state in the middle of the TOC pass of a demo build. -/
def stTocDemo : BMC :=
  beginTocPass (endContentOpfPass
    (hrefsDemo.foldl createSpineEntry (beginContentOpfPass (beginWrite initState))))

end BookMetadataCache

namespace BookMetadataCache

/-- C3: for every index file whose first (version) byte differs from the
expected format version (`BOOK_CACHE_VERSION` = 1), `BookMetadataCache.load`
fails closed: it returns failure (`none`, so no loaded state is ever set)
without reading the header fields, the metadata, or any spine/TOC data. -/
theorem C3_version_gate (b : Nat) (rest : List Nat) (hb : b ≠ bookCacheVersion) :
    load (b :: rest) = none := by
  unfold load
  have hv : serialization.readPod 1 ⟨b :: rest, 0⟩ = (b, ⟨b :: rest, 1⟩) := by
    simp [serialization.readPod, serialization.readRaw, serialization.takePad,
      serialization.fromBytesLE]
  rw [hv]
  exact if_pos hb

/-- C3 witness: a file whose version byte is 2 fails to load. -/
theorem C3_version_gate_witness : (2 ≠ bookCacheVersion) ∧ load [2] = none :=
  ⟨by decide, C3_version_gate 2 [] (by decide)⟩

/-- C2 counterexample: a concrete build in which the merge starts writing
book.bin but the archive cannot be opened: `buildBookBin` fails, yet the
partial output file it leaves behind is opened successfully by `load`. -/
theorem C2_counterexample :
    (builtBook hrefsDemo tsDemo zipClosedDemo mdDemo).1 = false ∧
    (load (builtBook hrefsDemo tsDemo zipClosedDemo mdDemo).2).isSome = true := by
  decide

theorem load_version_head (R : List Nat) :
    (load (serialization.writePod 1 bookCacheVersion ++ R)).isSome = true := by
  have h0 : (serialization.writePod 1 bookCacheVersion ++ R).drop 0 =
      serialization.writePod 1 1 ++ R := by
    rw [List.drop_zero]
    rfl
  have hv := serialization.readPod_spec h0
  unfold load
  rw [hv]
  simp [bookCacheVersion]

/-- C2 (amended): `load` validates only the version byte, so completeness
of the output is not checked.  When the merge fails after the header and
LUTs have been written (the archive cannot be opened, or its entry table
cannot be loaded), `buildBookBin` returns failure but the partial book.bin
it leaves behind carries a valid version byte and a subsequent `load`
succeeds.  There is no rename/finalize step guarding the output file. -/
theorem C2_partial_load_amended (st : BMC) (zip : ZipFile) (md : BookMetadata)
    (hfail : zip.canOpen = false ∨ zip.canLoadStats = false) :
    (buildBookBin st zip md).1 = false ∧
    (load (buildBookBin st zip md).2).isSome = true := by
  unfold buildBookBin
  dsimp only
  by_cases h1 : zip.canOpen = false
  · rw [if_pos h1]
    refine ⟨rfl, ?_⟩
    simp only [List.append_assoc]
    exact load_version_head _
  · rw [if_neg h1]
    have h2 : zip.canLoadStats = false := by
      rcases hfail with h | h
      · exact absurd h h1
      · exact h
    rw [if_pos h2]
    refine ⟨rfl, ?_⟩
    simp only [List.append_assoc]
    exact load_version_head _

/-- C2 (amended) witness: the concrete failed demo build. -/
theorem C2_partial_load_witness :
    (zipClosedDemo.canOpen = false ∨ zipClosedDemo.canLoadStats = false) ∧
    ((buildBookBin (runBuild hrefsDemo tsDemo) zipClosedDemo mdDemo).1 = false ∧
      (load (buildBookBin (runBuild hrefsDemo tsDemo) zipClosedDemo mdDemo).2).isSome = true) :=
  ⟨by decide, C2_partial_load_amended (runBuild hrefsDemo tsDemo) zipClosedDemo mdDemo
    (by decide)⟩

end BookMetadataCache

namespace BookMetadataCache

/-- C6 counterexample: during the TOC pass (build mode on, spine scratch
reopened for reading) `createSpineEntry` is not rejected by its guard: it
increments `spineCount` while the read-only spine scratch file cannot grow,
so the call is not a no-op and count and data go out of sync. -/
theorem C6_counterexample :
    (createSpineEntry stTocDemo [120]).spineCount = stTocDemo.spineCount + 1 ∧
    (createSpineEntry stTocDemo [120]).spineDisk = stTocDemo.spineDisk ∧
    ¬ createSpineEntry stTocDemo [120] = stTocDemo := by
  decide

/-- C6 (amended): creator calls outside build mode, or with the scratch
handle they write closed, are no-ops that change nothing; but
`createSpineEntry` during the TOC pass (build mode on, spine handle open
for reading) passes the guard and increments `spineCount` even though the
scratch data cannot change. -/
theorem C6_phase_discipline_amended (st : BMC) (href title anchor : List Nat) (level : Nat) :
    (st.buildMode = false ∨ st.spineMode = .closed → createSpineEntry st href = st) ∧
    (st.buildMode = false ∨ st.tocMode = .closed ∨ st.spineMode = .closed →
      createTocEntry st title href anchor level = st) ∧
    (st.buildMode = true → st.spineMode = .rmode →
      createSpineEntry st href = { st with spineCount := st.spineCount + 1 }) := by
  refine ⟨?_, ?_, ?_⟩
  · intro h
    unfold createSpineEntry
    rw [if_pos h]
  · intro h
    unfold createTocEntry
    rw [if_pos h]
  · intro hb hm
    unfold createSpineEntry
    rw [if_neg (by rw [hb, hm]; simp), hm]
    simp [hWrite]

/-- C6 (amended) witness: a fresh cache rejects `createSpineEntry`, and the
demo TOC-pass state shows the non-rejected count increment. -/
theorem C6_phase_discipline_witness :
    (initState.buildMode = false ∨ initState.spineMode = .closed) ∧
    createSpineEntry initState [120] = initState ∧
    createTocEntry initState [] [120] [] 1 = initState ∧
    (stTocDemo.buildMode = true ∧ stTocDemo.spineMode = .rmode) ∧
    createSpineEntry stTocDemo [120] = { stTocDemo with spineCount := stTocDemo.spineCount + 1 } :=
  ⟨Or.inl rfl,
   (C6_phase_discipline_amended initState [120] [] [] 1).1 (Or.inl rfl),
   (C6_phase_discipline_amended initState [120] [] [] 1).2.1 (Or.inl rfl),
   ⟨rfl, rfl⟩,
   (C6_phase_discipline_amended stTocDemo [120] [] [] 1).2.2 rfl rfl⟩

end BookMetadataCache

namespace FsHelpers

/-- C9 counterexample: `normalisePath` does not resolve "." segments (the
component "." — byte 46 — survives into the result), and a trailing ".."
segment is not resolved either; the claim that no component of the result
equals "." or ".." is false on the path "a/./b". -/
theorem C9_counterexample :
    normalisePath [97, 47, 46, 47, 98] = [97, 47, 46, 47, 98] ∧
    [46] ∈ normaliseComponents [97, 47, 46, 47, 98] ∧
    normalisePath [97, 47, 98, 47, 46, 46] = [97, 47, 98, 47, 46, 46] ∧
    [46, 46] ∈ normaliseComponents [97, 47, 98, 47, 46, 46] := by
  decide

/-- C9 (amended): `normalisePath` resolves only ".." segments that are
terminated by a slash — each removes the preceding component when one
exists — and repeated slashes introduce no empty components; "." segments
are kept verbatim and an unterminated trailing ".." component survives.
Formally: no component of the result is empty, no component before the
last is "..", and on concrete inputs slash-terminated ".." segments are
resolved. -/
theorem C9_normalise_amended (path : List Nat) :
    (∀ c ∈ normaliseComponents path, c ≠ []) ∧
    (∀ c ∈ (normaliseComponents path).dropLast, c ≠ dotdotComp) ∧
    normalisePath [97, 47, 98, 47, 46, 46, 47, 99] = [97, 47, 99] ∧
    normalisePath [46, 46, 47, 97, 47] = [97] ∧
    normalisePath [97, 47, 47, 98] = [97, 47, 98] := by
  have hinv := normaliseAux_inv path [] [] (by simp)
  exact ⟨hinv.1, hinv.2, by decide, by decide, by decide⟩

end FsHelpers

namespace Epub

/-- C10: on a loaded cache with at least one spine entry, the facade's
out-of-range behaviour is asymmetric: `Epub::getSpineItem` with a negative
or too-large index falls back to the spine entry at index 0, while
`Epub::getTocItem` with an out-of-range index returns the empty default
entry.  Both are total functions (nothing throws). -/
theorem C10_facade_out_of_range (c : BookMetadataCache.LoadedCache) (i j : Int)
    (_hsp : 1 ≤ c.spineCount)
    (hi : i < 0 ∨ (c.spineCount : Int) ≤ i)
    (hj : j < 0 ∨ (c.tocCount : Int) ≤ j) :
    getSpineItem (some c) i = BookMetadataCache.getSpineEntry c 0 ∧
    getTocItem (some c) j = BookMetadataCache.TocEntry.empty := by
  constructor
  · unfold getSpineItem
    dsimp only
    rw [if_pos hi]
  · unfold getTocItem
    dsimp only
    rw [if_pos hj]

/-- C10 witness: a loaded cache with one spine entry, probed at indices 5
and -1. -/
theorem C10_facade_witness :
    (1 ≤ (⟨0, 1, 0, [], [], [], []⟩ : BookMetadataCache.LoadedCache).spineCount) ∧
    getSpineItem (some ⟨0, 1, 0, [], [], [], []⟩) 5 =
      BookMetadataCache.getSpineEntry ⟨0, 1, 0, [], [], [], []⟩ 0 ∧
    getTocItem (some ⟨0, 1, 0, [], [], [], []⟩) (-1) = BookMetadataCache.TocEntry.empty :=
  ⟨by decide,
   (C10_facade_out_of_range ⟨0, 1, 0, [], [], [], []⟩ 5 (-1) (by decide)
     (Or.inr (by decide)) (Or.inl (by decide))).1,
   (C10_facade_out_of_range ⟨0, 1, 0, [], [], [], []⟩ 5 (-1) (by decide)
     (Or.inr (by decide)) (Or.inl (by decide))).2⟩

end Epub

namespace ContentOpfParser

/-- C8: handling a spine `itemref idref` scans the manifest scratch file
sequentially from its start; the first (itemId, href) pair whose itemId
equals the idref wins, and a new spine entry with that href is appended
(zero cumulative size, no TOC index yet, `spineCount` incremented).  When
no pair matches, no spine entry is created and the state is unchanged. -/
theorem C8_itemref_resolution (pairs : List (List Nat × List Nat)) (idref : List Nat)
    (st : BookMetadataCache.BMC)
    (hwfP : ∀ pr ∈ pairs, pr.1.length < 2 ^ 32 ∧ pr.2.length < 2 ^ 32)
    (hb : st.buildMode = true) (hm : st.spineMode = .wmode) :
    (∀ k, BookMetadataCache.firstIdx (fun pr => pr.1 = idref) pairs = some k →
      handleItemref st ((pairs.map writeItemPair).flatten) idref =
        { st with
            spineDisk := st.spineDisk ++
              BookMetadataCache.writeSpineEntry
                (BookMetadataCache.scratchEntry (pairs.getD k ([], [])).2),
            spinePos := st.spinePos +
              (BookMetadataCache.writeSpineEntry
                (BookMetadataCache.scratchEntry (pairs.getD k ([], [])).2)).length,
            spineCount := st.spineCount + 1 } ∧
        (pairs.getD k ([], [])).1 = idref ∧
        (∀ j, j < k → (pairs.getD j ([], [])).1 ≠ idref)) ∧
    (BookMetadataCache.firstIdx (fun pr => pr.1 = idref) pairs = none →
      handleItemref st ((pairs.map writeItemPair).flatten) idref = st) := by
  have hscan := scanItemStore_spec idref pairs ((pairs.map writeItemPair).flatten)
    0 ((pairs.map writeItemPair).flatten).length (itemStore_length_ge pairs)
    (by omega) (by rw [List.drop_zero]) hwfP
  constructor
  · intro k hk
    rw [hk] at hscan
    have hfirst := BookMetadataCache.firstIdx_some_getD _ (([], []) : List Nat × List Nat)
      pairs k hk
    refine ⟨?_, ?_, ?_⟩
    · unfold handleItemref
      rw [hscan]
      exact BookMetadataCache.createSpineEntry_wmode st _ hb hm
    · simpa using hfirst.1
    · intro j hj
      have := hfirst.2 j hj
      simpa using this
  · intro hk
    rw [hk] at hscan
    unfold handleItemref
    rw [hscan]

/-- C8 witness: a two-pair manifest scratch in the content.opf pass; the
idref matching the second pair creates a spine entry with its href. -/
theorem C8_itemref_witness :
    (∀ pr ∈ ([([105, 49], [99, 49]), ([105, 50], [99, 50])] : List (List Nat × List Nat)),
        pr.1.length < 2 ^ 32 ∧ pr.2.length < 2 ^ 32) ∧
    (BookMetadataCache.beginContentOpfPass
      (BookMetadataCache.beginWrite BookMetadataCache.initState)).buildMode = true ∧
    BookMetadataCache.firstIdx (fun pr => pr.1 = [105, 50])
      ([([105, 49], [99, 49]), ([105, 50], [99, 50])] : List (List Nat × List Nat)) = some 1 ∧
    handleItemref
      (BookMetadataCache.beginContentOpfPass
        (BookMetadataCache.beginWrite BookMetadataCache.initState))
      ((([([105, 49], [99, 49]), ([105, 50], [99, 50])] :
        List (List Nat × List Nat)).map writeItemPair).flatten) [105, 50] =
      { BookMetadataCache.beginContentOpfPass
          (BookMetadataCache.beginWrite BookMetadataCache.initState) with
          spineDisk := (BookMetadataCache.beginContentOpfPass
            (BookMetadataCache.beginWrite BookMetadataCache.initState)).spineDisk ++
            BookMetadataCache.writeSpineEntry
              (BookMetadataCache.scratchEntry
                ((([([105, 49], [99, 49]), ([105, 50], [99, 50])] :
                  List (List Nat × List Nat)).getD 1 ([], [])).2)),
          spinePos := (BookMetadataCache.beginContentOpfPass
            (BookMetadataCache.beginWrite BookMetadataCache.initState)).spinePos +
            (BookMetadataCache.writeSpineEntry
              (BookMetadataCache.scratchEntry
                ((([([105, 49], [99, 49]), ([105, 50], [99, 50])] :
                  List (List Nat × List Nat)).getD 1 ([], [])).2))).length,
          spineCount := (BookMetadataCache.beginContentOpfPass
            (BookMetadataCache.beginWrite BookMetadataCache.initState)).spineCount + 1 } :=
  ⟨by decide, rfl, by decide,
   ((C8_itemref_resolution ([([105, 49], [99, 49]), ([105, 50], [99, 50])] :
      List (List Nat × List Nat)) [105, 50]
      (BookMetadataCache.beginContentOpfPass
        (BookMetadataCache.beginWrite BookMetadataCache.initState))
      (by decide) rfl rfl).1 1 (by decide)).1⟩

end ContentOpfParser

namespace BookMetadataCache

/-- C1 counterexample: with an archive that reports no size for the second
spine item, the build still finalizes and reloads, but `cumulativeSize`
decreases from spine index 0 to 1 (1000, then the scratch value 0), so the
claimed unconditional monotonicity is false. -/
theorem C1_counterexample :
    (builtBook hrefsDemo tsDemo zipMissDemo mdDemo).1 = true ∧
    ((load (builtBook hrefsDemo tsDemo zipMissDemo mdDemo).2).map fun c =>
      decide ((getSpineEntry c 1).cumulativeSize < (getSpineEntry c 0).cumulativeSize)) =
      some true := by
  decide

/-- C1 (amended): for a finalized build, reloading the index gives back the
entry counts, every spine href and every TOC title/href/anchor/level field
exactly; and provided the archive reports an inflated size for every spine
item, the `cumulativeSize` values are non-decreasing in spine index order
(without that proviso a failed size query leaves 0 mid-sequence). -/
theorem C1_round_trip_amended (hrefs : List (List Nat)) (ts : List TocInput) (zip : ZipFile)
    (md : BookMetadata) (hwf : wfInputs hrefs ts md)
    (hopen : zip.canOpen = true) (hstats : zip.canLoadStats = true)
    (hlen : (bookBytes hrefs ts zip md).length < 2 ^ 32)
    (hcum : ∀ e ∈ finalSpineList zip hrefs ts, e.cumulativeSize < 2 ^ 32) :
    builtBook hrefs ts zip md = (true, bookBytes hrefs ts zip md) ∧
    ∃ c, load (bookBytes hrefs ts zip md) = some c ∧
      c.spineCount = hrefs.length ∧ c.tocCount = ts.length ∧
      (∀ k, k < hrefs.length → (getSpineEntry c (k : Int)).href = hrefs.getD k []) ∧
      (∀ k, k < ts.length →
        (getTocEntry c (k : Int)).title = (ts.getD k ⟨[], [], [], 0⟩).title ∧
        (getTocEntry c (k : Int)).href = (ts.getD k ⟨[], [], [], 0⟩).href ∧
        (getTocEntry c (k : Int)).anchor = (ts.getD k ⟨[], [], [], 0⟩).anchor ∧
        (getTocEntry c (k : Int)).level = (ts.getD k ⟨[], [], [], 0⟩).level) ∧
      ((∀ h ∈ hrefs, (zip.inflatedSize (FsHelpers.normalisePath h)).isSome = true) →
        ∀ j k, j ≤ k → k < hrefs.length →
          (getSpineEntry c (j : Int)).cumulativeSize ≤
            (getSpineEntry c (k : Int)).cumulativeSize) := by
  obtain ⟨hbb, hload, hsp, htoc⟩ := builtBook_master hrefs ts zip md hwf hopen hstats hlen hcum
  refine ⟨hbb, _, hload, rfl, rfl, ?_, ?_, ?_⟩
  · intro k hk
    rw [hsp k hk]
    exact finalSpineAux_getD_href zip (resolvedTocList hrefs ts) hrefs 0 0 k hk
  · intro k hk
    rw [htoc k hk, resolvedTocList_getD hrefs ts k hk]
    exact ⟨rfl, rfl, rfl, rfl⟩
  · intro hz j k hjk hk
    have hz' : ∀ h ∈ hrefs, zip.inflatedSize (FsHelpers.normalisePath h) =
        some ((zip.inflatedSize (FsHelpers.normalisePath h)).getD 0) := by
      intro h hh
      have hs := hz h hh
      cases ho : zip.inflatedSize (FsHelpers.normalisePath h) with
      | none => rw [ho] at hs; simp at hs
      | some s => simp
    have hz'' : ∀ h ∈ hrefs, zip.inflatedSize (FsHelpers.normalisePath h) =
        some ((fun x => (zip.inflatedSize (FsHelpers.normalisePath x)).getD 0) h) := hz'
    have hcj := finalSpineAux_getD_cum zip (resolvedTocList hrefs ts)
      (fun x => (zip.inflatedSize (FsHelpers.normalisePath x)).getD 0) hrefs 0 0 hz''
      j (by omega)
    have hck := finalSpineAux_getD_cum zip (resolvedTocList hrefs ts)
      (fun x => (zip.inflatedSize (FsHelpers.normalisePath x)).getD 0) hrefs 0 0 hz''
      k hk
    rw [hsp j (by omega), hsp k hk]
    show ((finalSpineAux zip (resolvedTocList hrefs ts) hrefs 0 0).getD j
        SpineEntry.empty).cumulativeSize ≤
      ((finalSpineAux zip (resolvedTocList hrefs ts) hrefs 0 0).getD k
        SpineEntry.empty).cumulativeSize
    rw [hcj, hck, List.map_take, List.map_take]
    have := sum_take_mono
      (hrefs.map fun x => (zip.inflatedSize (FsHelpers.normalisePath x)).getD 0)
      (j + 1) (k + 1) (by omega)
    omega

/-- C1 (amended) witness: the demo build, both entries sized, round-trips
with counts 2 and 1 and non-decreasing cumulative sizes. -/
theorem C1_round_trip_witness :
    wfInputs hrefsDemo tsDemo mdDemo ∧
    (bookBytes hrefsDemo tsDemo zipDemo mdDemo).length < 2 ^ 32 ∧
    (∀ e ∈ finalSpineList zipDemo hrefsDemo tsDemo, e.cumulativeSize < 2 ^ 32) ∧
    (builtBook hrefsDemo tsDemo zipDemo mdDemo = (true, bookBytes hrefsDemo tsDemo zipDemo mdDemo) ∧
      ∃ c, load (bookBytes hrefsDemo tsDemo zipDemo mdDemo) = some c ∧
        c.spineCount = hrefsDemo.length ∧ c.tocCount = tsDemo.length ∧
        (∀ k, k < hrefsDemo.length →
          (getSpineEntry c (k : Int)).href = hrefsDemo.getD k []) ∧
        (∀ k, k < tsDemo.length →
          (getTocEntry c (k : Int)).title = (tsDemo.getD k ⟨[], [], [], 0⟩).title ∧
          (getTocEntry c (k : Int)).href = (tsDemo.getD k ⟨[], [], [], 0⟩).href ∧
          (getTocEntry c (k : Int)).anchor = (tsDemo.getD k ⟨[], [], [], 0⟩).anchor ∧
          (getTocEntry c (k : Int)).level = (tsDemo.getD k ⟨[], [], [], 0⟩).level) ∧
        ((∀ h ∈ hrefsDemo,
            (zipDemo.inflatedSize (FsHelpers.normalisePath h)).isSome = true) →
          ∀ j k, j ≤ k → k < hrefsDemo.length →
            (getSpineEntry c (j : Int)).cumulativeSize ≤
              (getSpineEntry c (k : Int)).cumulativeSize)) :=
  ⟨by decide, by decide, by decide,
   C1_round_trip_amended hrefsDemo tsDemo zipDemo mdDemo (by decide) (by decide) (by decide)
     (by decide) (by decide)⟩

end BookMetadataCache

namespace BookMetadataCache

/-- C4: when the archive reports an inflated size for every spine item, the
finalized spine entry at index k carries `cumulativeSize` equal to the sum
of the inflated sizes of items 0 through k. -/
theorem C4_cumulative_size (hrefs : List (List Nat)) (ts : List TocInput) (zip : ZipFile)
    (md : BookMetadata) (szf : List Nat → Nat) (hwf : wfInputs hrefs ts md)
    (hopen : zip.canOpen = true) (hstats : zip.canLoadStats = true)
    (hlen : (bookBytes hrefs ts zip md).length < 2 ^ 32)
    (hcum : ∀ e ∈ finalSpineList zip hrefs ts, e.cumulativeSize < 2 ^ 32)
    (hz : ∀ h ∈ hrefs, zip.inflatedSize (FsHelpers.normalisePath h) = some (szf h)) :
    builtBook hrefs ts zip md = (true, bookBytes hrefs ts zip md) ∧
    ∃ c, load (bookBytes hrefs ts zip md) = some c ∧
      ∀ k, k < hrefs.length →
        (getSpineEntry c (k : Int)).cumulativeSize = ((hrefs.take (k + 1)).map szf).sum := by
  obtain ⟨hbb, hload, hsp, _⟩ := builtBook_master hrefs ts zip md hwf hopen hstats hlen hcum
  refine ⟨hbb, _, hload, ?_⟩
  intro k hk
  rw [hsp k hk]
  show ((finalSpineAux zip (resolvedTocList hrefs ts) hrefs 0 0).getD k
    SpineEntry.empty).cumulativeSize = _
  rw [finalSpineAux_getD_cum zip (resolvedTocList hrefs ts) szf hrefs 0 0 hz k hk]
  omega

/-- C4 witness: the spec's scenario, two items of 1000 and 1500 inflated
bytes give cumulative sizes 1000 and 2500. -/
theorem C4_cumulative_witness :
    (∀ h ∈ hrefsDemo, zipDemo.inflatedSize (FsHelpers.normalisePath h) =
      some ((fun x => if x = [99, 49] then 1000 else 1500) h)) ∧
    (builtBook hrefsDemo tsDemo zipDemo mdDemo =
        (true, bookBytes hrefsDemo tsDemo zipDemo mdDemo) ∧
      ∃ c, load (bookBytes hrefsDemo tsDemo zipDemo mdDemo) = some c ∧
        ∀ k, k < hrefsDemo.length →
          (getSpineEntry c (k : Int)).cumulativeSize =
            ((hrefsDemo.take (k + 1)).map fun x => if x = [99, 49] then 1000 else 1500).sum) ∧
    ((load (bookBytes hrefsDemo tsDemo zipDemo mdDemo)).map fun c =>
      ((getSpineEntry c 0).cumulativeSize, (getSpineEntry c 1).cumulativeSize)) =
      some (1000, 2500) :=
  ⟨by decide,
   C4_cumulative_size hrefsDemo tsDemo zipDemo mdDemo
     (fun x => if x = [99, 49] then 1000 else 1500) (by decide) (by decide) (by decide)
     (by decide) (by decide) (by decide),
   by decide⟩

/-- C5: in a finalized build, each spine entry's `tocIndex` is the smallest
TOC index whose finalized entry resolves to this spine index, or -1 when no
TOC entry does — so at most one TOC entry is recorded per spine index. -/
theorem C5_merge_cross_reference (hrefs : List (List Nat)) (ts : List TocInput) (zip : ZipFile)
    (md : BookMetadata) (hwf : wfInputs hrefs ts md)
    (hopen : zip.canOpen = true) (hstats : zip.canLoadStats = true)
    (hlen : (bookBytes hrefs ts zip md).length < 2 ^ 32)
    (hcum : ∀ e ∈ finalSpineList zip hrefs ts, e.cumulativeSize < 2 ^ 32) :
    builtBook hrefs ts zip md = (true, bookBytes hrefs ts zip md) ∧
    ∃ c, load (bookBytes hrefs ts zip md) = some c ∧
      ∀ i, i < hrefs.length →
        ((∃ j, j < ts.length ∧ (getTocEntry c (j : Int)).spineIndex = (i : Int) ∧
            (∀ m, m < j → (getTocEntry c (m : Int)).spineIndex ≠ (i : Int)) ∧
            (getSpineEntry c (i : Int)).tocIndex = (j : Int)) ∨
          ((∀ j, j < ts.length → (getTocEntry c (j : Int)).spineIndex ≠ (i : Int)) ∧
            (getSpineEntry c (i : Int)).tocIndex = -1)) := by
  obtain ⟨hbb, hload, hsp, htoc⟩ := builtBook_master hrefs ts zip md hwf hopen hstats hlen hcum
  refine ⟨hbb, _, hload, ?_⟩
  intro i hi
  have hM := resolvedTocList_length hrefs ts
  have htocIdx : ((finalSpineList zip hrefs ts).getD i SpineEntry.empty).tocIndex =
      finalTocIdx (resolvedTocList hrefs ts) i := by
    have := finalSpineAux_getD_tocIdx zip (resolvedTocList hrefs ts) hrefs 0 0 i hi
    simpa using this
  unfold finalTocIdx at htocIdx
  cases hfi : firstIdx (fun te => te.spineIndex = (i : Int)) (resolvedTocList hrefs ts) with
  | some j =>
      rw [hfi] at htocIdx
      left
      have hjlen := firstIdx_lt _ _ j hfi
      have hfirst := firstIdx_some_getD _ TocEntry.empty _ j hfi
      refine ⟨j, by omega, ?_, ?_, ?_⟩
      · rw [htoc j (by omega)]
        simpa using hfirst.1
      · intro m hm
        rw [htoc m (by omega)]
        have := hfirst.2 m hm
        simpa using this
      · rw [hsp i hi, htocIdx]
  | none =>
      rw [hfi] at htocIdx
      right
      rw [firstIdx_none_iff] at hfi
      refine ⟨?_, by rw [hsp i hi, htocIdx]⟩
      intro j hj
      rw [htoc j hj]
      have hmem : (resolvedTocList hrefs ts).getD j TocEntry.empty ∈
          resolvedTocList hrefs ts := by
        rw [List.getD_eq_getElem _ _ (by omega)]
        exact List.getElem_mem _
      have := hfi _ hmem
      simpa using this

/-- C5 witness: the demo build; spine item 0 is targeted by TOC entry 0 and
spine item 1 by none. -/
theorem C5_merge_cross_reference_witness :
    wfInputs hrefsDemo tsDemo mdDemo ∧
    (builtBook hrefsDemo tsDemo zipDemo mdDemo =
        (true, bookBytes hrefsDemo tsDemo zipDemo mdDemo) ∧
      ∃ c, load (bookBytes hrefsDemo tsDemo zipDemo mdDemo) = some c ∧
        ∀ i, i < hrefsDemo.length →
          ((∃ j, j < tsDemo.length ∧ (getTocEntry c (j : Int)).spineIndex = (i : Int) ∧
              (∀ m, m < j → (getTocEntry c (m : Int)).spineIndex ≠ (i : Int)) ∧
              (getSpineEntry c (i : Int)).tocIndex = (j : Int)) ∨
            ((∀ j, j < tsDemo.length → (getTocEntry c (j : Int)).spineIndex ≠ (i : Int)) ∧
              (getSpineEntry c (i : Int)).tocIndex = -1))) ∧
    ((load (bookBytes hrefsDemo tsDemo zipDemo mdDemo)).map fun c =>
      ((getSpineEntry c 0).tocIndex, (getSpineEntry c 1).tocIndex)) = some (0, -1) :=
  ⟨by decide,
   C5_merge_cross_reference hrefsDemo tsDemo zipDemo mdDemo (by decide) (by decide)
     (by decide) (by decide) (by decide),
   by decide⟩

theorem createTocEntry_count (st : BMC) (title href anchor : List Nat) (level : Nat)
    (hb : st.buildMode = true) (htm : st.tocMode = .wmode) (hsm : st.spineMode = .rmode) :
    (createTocEntry st title href anchor level).tocCount = st.tocCount + 1 := by
  unfold createTocEntry
  rw [if_neg (by rw [hb, htm, hsm]; simp)]

/-- C7: a TOC entry whose href matches no spine href is still written and
counted (`tocCount` increases by one), carries `spineIndex` -1 into the
finalized index, and the merge still succeeds — a resolution miss never
aborts the build. -/
theorem C7_resolution_miss (hrefs : List (List Nat)) (ts : List TocInput) (zip : ZipFile)
    (md : BookMetadata) (j : Nat) (hwf : wfInputs hrefs ts md)
    (hopen : zip.canOpen = true) (hstats : zip.canLoadStats = true)
    (hlen : (bookBytes hrefs ts zip md).length < 2 ^ 32)
    (hcum : ∀ e ∈ finalSpineList zip hrefs ts, e.cumulativeSize < 2 ^ 32)
    (hj : j < ts.length)
    (hmiss : (ts.getD j ⟨[], [], [], 0⟩).href ∉ hrefs) :
    builtBook hrefs ts zip md = (true, bookBytes hrefs ts zip md) ∧
    (∀ st : BMC, st.buildMode = true → st.tocMode = .wmode → st.spineMode = .rmode →
      ∀ title href anchor level,
        (createTocEntry st title href anchor level).tocCount = st.tocCount + 1) ∧
    ∃ c, load (bookBytes hrefs ts zip md) = some c ∧ c.tocCount = ts.length ∧
      (getTocEntry c (j : Int)).spineIndex = -1 := by
  obtain ⟨hbb, hload, _, htoc⟩ := builtBook_master hrefs ts zip md hwf hopen hstats hlen hcum
  refine ⟨hbb, ?_, _, hload, rfl, ?_⟩
  · intro st hb htm hsm title href anchor level
    exact createTocEntry_count st title href anchor level hb htm hsm
  · rw [htoc j hj, resolvedTocList_getD hrefs ts j hj]
    exact resolveSpineIndex_notMem hrefs _ hmiss

/-- C7 witness: the demo build with a TOC input whose href "z" matches no
spine item; it still lands in the index with spineIndex -1 and the build
succeeds. -/
theorem C7_resolution_miss_witness :
    wfInputs hrefsDemo tsMissDemo mdDemo ∧
    ((tsMissDemo.getD 0 ⟨[], [], [], 0⟩).href ∉ hrefsDemo) ∧
    (builtBook hrefsDemo tsMissDemo zipDemo mdDemo =
        (true, bookBytes hrefsDemo tsMissDemo zipDemo mdDemo) ∧
      (∀ st : BMC, st.buildMode = true → st.tocMode = .wmode → st.spineMode = .rmode →
        ∀ title href anchor level,
          (createTocEntry st title href anchor level).tocCount = st.tocCount + 1) ∧
      ∃ c, load (bookBytes hrefsDemo tsMissDemo zipDemo mdDemo) = some c ∧
        c.tocCount = tsMissDemo.length ∧ (getTocEntry c (0 : Int)).spineIndex = -1) :=
  ⟨by decide, by decide,
   C7_resolution_miss hrefsDemo tsMissDemo zipDemo mdDemo 0 (by decide) (by decide)
     (by decide) (by decide) (by decide) (by decide) (by decide)⟩

end BookMetadataCache
